import Mathlib

/-!
Verification of the duplicate-question detection engine
(`backend/processing/duplicate_detector.py`,
`backend/processing/optimized_duplicate_detector.py`,
`backend/duplicate_config.py`).

The Python code is shallowly embedded: strings are Lean `String` (ASCII
fragment of Python `str`), Python floats are modelled as exact rationals
`ℚ`, Python dict-shaped question records become a fixed-schema structure
(`question.get(key, '')` is modelled by a field defaulting to `""`), and
the external NLP backends (NLTK tokenizer/stemmer/stop-word list, the
sklearn TF-IDF vectorizer, the sentence-transformer embedding model) are
parameters (`NLPContext`, `SignalOracles`): the repository code treats
them as opaque services and the embedded functions are faithful for every
instantiation of those parameters.
-/

/-- Character-level step of `normalize_text`: lowercase, keep word
characters (`\w` = alphanumeric or underscore) and question marks,
turn every other character (including all whitespace) into a space. -/
def normChar (ch : Char) : Char :=
  let d := ch.toLower
  if d.isAlphanum || d = '_' || d = '?' then d else ' '

/-- Split a character list at spaces, dropping empty fragments: the
behaviour of Python `str.split()` (`acc` holds the current word in
reverse). Character-list recursion is used because the corresponding
`String` library functions do not reduce in the kernel. -/
def wordsAux : List Char → List Char → List (List Char)
  | [], acc => if acc = [] then [] else [acc.reverse]
  | ch :: rest, acc =>
    if ch = ' ' then
      (if acc = [] then wordsAux rest [] else acc.reverse :: wordsAux rest [])
    else wordsAux rest (ch :: acc)

/-- Model of Python `str.split()` on an already space-normalized string:
split on spaces and drop empty fragments (so `"".split() = []`). -/
def pyWords (s : String) : List String :=
  (wordsAux s.data []).map String.mk

/-- Interleave single spaces between words: `' '.join`. -/
def sepSpaces : List (List Char) → List Char
  | [] => []
  | [w] => w
  | w :: rest => w ++ ' ' :: sepSpaces rest

/-- Embedding of `normalize_text` (identical in both detector classes):
lowercase, replace every character that is not a word character or a
question mark by a space, collapse whitespace runs, strip the ends. -/
def normalize_text (s : String) : String :=
  String.mk (sepSpaces (wordsAux (s.data.map normChar) []))

/-- Model of Python `str.strip()`: drop leading and trailing whitespace. -/
def pyStrip (s : String) : String :=
  String.mk (((s.data.dropWhile Char.isWhitespace).reverse.dropWhile Char.isWhitespace).reverse)

/-- Model of Python slicing `s[:n]`: the first `n` characters. -/
def pyTake (n : ℕ) (s : String) : String :=
  String.mk (s.data.take n)

/-- The 32 characters of Python `string.punctuation`, as one-character
strings (the source checks `token not in string.punctuation`). -/
def punctuationStrings : List String :=
  ["!", "\"", "#", "$", "%", "&", "\x27", "(", ")", "*", "+", ",", "-",
   ".", "/", ":", ";", "<", "=", ">", "?", "@", "[", "\\", "]", "^",
   "_", "\x60", "\x7b", "|", "\x7d", "~"]

/-- External NLP services used by `extract_keywords`: the NLTK
`word_tokenize` (applied to the normalized text; the source falls back to
`str.split` when it raises), the Porter stemmer, and the stop-word list
(empty when NLTK data is unavailable). -/
structure NLPContext where
  tokenize : String → List String
  stem : String → String
  stop_words : Finset String

/-- Embedding of `extract_keywords`: normalize, tokenize, keep tokens of
length > 2 that are neither stop-words nor punctuation, inserting both
the surface token and its stemmed form into the keyword set. -/
def extract_keywords (ctx : NLPContext) (text : String) : Finset String :=
  let normalized := normalize_text text
  (ctx.tokenize normalized).foldl
    (fun acc token =>
      if 2 < token.length ∧ token ∉ ctx.stop_words ∧ token ∉ punctuationStrings then
        insert (ctx.stem token) (insert token acc)
      else acc)
    ∅

/-- Embedding of `calculate_exact_similarity` (identical in both
detector classes): 1.0 on equal normalized strings, otherwise Jaccard
similarity of the whitespace-split word sets, 0.0 when either word set
is empty. -/
def calculate_exact_similarity (q1 q2 : String) : ℚ :=
  let norm1 := normalize_text q1
  let norm2 := normalize_text q2
  if norm1 = norm2 then 1
  else
    let words1 := (pyWords norm1).toFinset
    let words2 := (pyWords norm2).toFinset
    if words1 = ∅ ∨ words2 = ∅ then 0
    else
      let inter := words1 ∩ words2
      let uni := words1 ∪ words2
      if uni = ∅ then 0 else (inter.card : ℚ) / (uni.card : ℚ)

/-- Embedding of `calculate_keyword_similarity` (identical in both
detector classes): Jaccard similarity of the two keyword sets, 0.0 when
either keyword set is empty. -/
def calculate_keyword_similarity (ctx : NLPContext) (q1 q2 : String) : ℚ :=
  let keywords1 := extract_keywords ctx q1
  let keywords2 := extract_keywords ctx q2
  if keywords1 = ∅ ∨ keywords2 = ∅ then 0
  else
    let inter := keywords1 ∩ keywords2
    let uni := keywords1 ∪ keywords2
    if uni = ∅ then 0 else (inter.card : ℚ) / (uni.card : ℚ)

/-- Question record. Python question dicts have the fixed field schema
produced by the parser; `question.get(key, '')` reads are modelled by
fields defaulting to `""` (a missing key and an empty value behave
identically in every read the detector performs). -/
structure Question where
  type : String := ""
  question : String := ""
  a : String := ""
  b : String := ""
  c : String := ""
  d : String := ""
  e : String := ""
  answer : String := ""
  category : String := ""
  q_type : String := ""
  image : String := ""
deriving DecidableEq, Repr, Inhabited

/-- Embedding of `_extract_question_text` (identical in both detector
classes): the question stem, plus the non-empty options a-e for multiple
choice (joined after an unconditional separating space), plus the answer
for written questions when it is longer than 20 characters. -/
def extract_question_text (q : Question) : String :=
  let text := q.question
  if q.type = "multiple choice" then
    let options := [q.a, q.b, q.c, q.d, q.e].filter (fun o => o ≠ "")
    text ++ " " ++ String.mk (sepSpaces (options.map String.data))
  else if q.type = "written question" ∧ 20 < q.answer.length then
    text ++ " " ++ q.answer
  else text

/-- Embedding of `_score_question_completeness` (identical in both
detector classes): stripped question length, plus stripped lengths of
non-empty options for multiple choice, plus twice the stripped answer
length, plus 10 for a non-empty category, plus 20 for an image value. -/
def score_question_completeness (q : Question) : ℕ :=
  let s1 := if pyStrip q.question ≠ "" then (pyStrip q.question).length else 0
  let s2 :=
    if q.type = "multiple choice" then
      [q.a, q.b, q.c, q.d, q.e].foldl
        (fun s o => if pyStrip o ≠ "" then s + (pyStrip o).length else s) s1
    else s1
  let s3 := if pyStrip q.answer ≠ "" then s2 + (pyStrip q.answer).length * 2 else s2
  let s4 := if pyStrip q.category ≠ "" then s3 + 10 else s3
  if q.image ≠ "" then s4 + 20 else s4

/-- External similarity backends: the sentence-transformer semantic
cosine (`none` models `self.sentence_model is None`, the degraded mode)
and the per-pair TF-IDF cosine obtained by fitting the vectorizer on the
two texts (its exception path, which yields 0.0, is folded into the
oracle's value). -/
structure SignalOracles where
  semantic : Option (String → String → ℚ)
  tfidfPair : String → String → ℚ

/-- Semantic signal of `calculate_similarity`: 0.0 when the sentence
model is unavailable, otherwise the embedding cosine of the two texts. -/
def semantic_signal (orc : SignalOracles) (text1 text2 : String) : ℚ :=
  match orc.semantic with
  | none => 0
  | some f => f text1 text2

/-- Embedding of `QuestionDuplicateDetector.calculate_similarity`:
early 0.0 when either extracted text is empty, otherwise the fixed
weighted combination of the four signals. -/
def calculate_similarity (ctx : NLPContext) (orc : SignalOracles)
    (q1 q2 : Question) : ℚ :=
  let text1 := extract_question_text q1
  let text2 := extract_question_text q2
  if text1 = "" ∨ text2 = "" then 0
  else
    let exact_sim := calculate_exact_similarity text1 text2
    let keyword_sim := calculate_keyword_similarity ctx text1 text2
    let semantic_sim := semantic_signal orc text1 text2
    let tfidf_sim := orc.tfidfPair text1 text2
    exact_sim * 0.3 + semantic_sim * 0.4 + tfidf_sim * 0.2 + keyword_sim * 0.1

/-- Embedding of
`OptimizedQuestionDuplicateDetector._calculate_similarity_optimized`
(the `use_cache = False` configuration; the cache only replays a value
previously computed by this same body for the same text pair): texts are
passed in precomputed, the semantic signal is the cosine of the two given
embeddings (`none` when embeddings were not supplied), TF-IDF is refit on
the pair. -/
def calculate_similarity_optimized (ctx : NLPContext) (orc : SignalOracles)
    (text1 text2 : String) (embCos : Option ℚ) : ℚ :=
  if text1 = "" ∨ text2 = "" then 0
  else
    let exact_sim := calculate_exact_similarity text1 text2
    let keyword_sim := calculate_keyword_similarity ctx text1 text2
    let semantic_sim := match embCos with | none => 0 | some v => v
    let tfidf_sim := orc.tfidfPair text1 text2
    exact_sim * 0.3 + semantic_sim * 0.4 + tfidf_sim * 0.2 + keyword_sim * 0.1

/-- Default of `QuestionDuplicateDetector.__init__(similarity_threshold=0.6)`. -/
def questionDuplicateDetector_default_threshold : ℚ := 0.6

/-- Default of `OptimizedQuestionDuplicateDetector.__init__(similarity_threshold=0.6)`. -/
def optimizedQuestionDuplicateDetector_default_threshold : ℚ := 0.6

/-- Default of the module-level wrapper
`annotate_duplicates_in_questions(questions, similarity_threshold=0.8)`. -/
def annotate_duplicates_in_questions_default_threshold : ℚ := 0.8

/-- Default of the module-level wrapper
`annotate_duplicates_in_questions_optimized(questions, similarity_threshold=0.6)`. -/
def annotate_duplicates_in_questions_optimized_default_threshold : ℚ := 0.6

/-- The constant `DEFAULT_SIMILARITY_THRESHOLD` of `backend/duplicate_config.py`. -/
def DEFAULT_SIMILARITY_THRESHOLD : ℚ := 0.8

/-- Embedding of `QuestionDuplicateDetector.find_duplicate_groups`,
working on record indices (Python object identity is index identity:
`questions[i]` at distinct positions are distinct objects). The outer
loop takes the next unprocessed index `i` as seed; the inner loop scans
the later unprocessed indices `j` and absorbs those with
`calculate_similarity(questions[i], questions[j]) >= threshold` into the
seed's group. `l` is the ascending list of unprocessed indices, so the
head is the next seed and the tail is exactly the scanned `j > i`. -/
def greedy_groups (sim : ℕ → ℕ → ℚ) (t : ℚ) : List ℕ → List (List ℕ)
  | [] => []
  | i :: rest =>
    (i :: rest.filter (fun j => sim i j ≥ t)) ::
      greedy_groups sim t (rest.filter (fun j => ¬ sim i j ≥ t))
termination_by l => l.length
decreasing_by
  simp only [List.length_cons]
  exact Nat.lt_succ_of_le (List.length_filter_le _ _)

/-- Baseline grouping entry point: `find_duplicate_groups` over the
index list `0..n-1`, with the pairwise similarity function abstracted
(instantiate `sim i j := calculate_similarity ctx orc (qs[i]) (qs[j])`). -/
def find_duplicate_groups (n : ℕ) (sim : ℕ → ℕ → ℚ) (t : ℚ) : List (List ℕ) :=
  greedy_groups sim t (List.range n)

/-- Pointwise update of a parent map: `parent[a] = b`. -/
def parent_upd (p : ℕ → ℕ) (a b : ℕ) : ℕ → ℕ :=
  fun x => if x = a then b else p x

/-- Embedding of the recursive `find` of `_cluster_questions`, with path
compression: `if parent[x] != x: parent[x] = find(parent[x]); return
parent[x]`. The recursion is fuelled (the callers pass fuel `n`, which
suffices: see `find_compress_spec`); the result is the root together
with the compressed parent map. -/
def find_compress (p : ℕ → ℕ) : ℕ → ℕ → ℕ × (ℕ → ℕ)
  | 0, x => (x, p)
  | fuel + 1, x =>
    if p x = x then (x, p)
    else
      let r := find_compress p fuel (p x)
      (r.1, parent_upd r.2 x r.1)

/-- Root of `x`: follow parents until a fixed point (fuelled). -/
def root_aux (p : ℕ → ℕ) : ℕ → ℕ → ℕ
  | 0, x => x
  | fuel + 1, x => if p x = x then x else root_aux p fuel (p x)

/-- The root function of a parent map over `n` elements. -/
def ufRoot (n : ℕ) (p : ℕ → ℕ) (x : ℕ) : ℕ := root_aux p n x

/-- Embedding of `union` of `_cluster_questions`: `px, py = find(x),
find(y); if px != py: parent[px] = py` (the second `find` runs on the
state compressed by the first). -/
def union_op (n : ℕ) (p : ℕ → ℕ) (x y : ℕ) : ℕ → ℕ :=
  let fx := find_compress p n x
  let fy := find_compress fx.2 n y
  if fx.1 = fy.1 then fy.2 else parent_upd fy.2 fx.1 fy.1

/-- Process a list of candidate pairs through `union`. -/
def apply_edges (n : ℕ) : List (ℕ × ℕ) → (ℕ → ℕ) → (ℕ → ℕ)
  | [], p => p
  | e :: rest, p => apply_edges n rest (union_op n p e.1 e.2)

/-- The pair loop of `_cluster_questions`: all `(i, j)` with
`i < j < n` and `similarity_matrix[i][j] >= similarity_threshold`, in
loop order (`i` ascending, then `j` ascending). -/
def threshold_pairs (sim : ℕ → ℕ → ℚ) (t : ℚ) (n : ℕ) : List (ℕ × ℕ) :=
  (List.range n).flatMap
    (fun i => (((List.range n).filter (fun j => i < j ∧ sim i j ≥ t)).map (fun j => (i, j))))

/-- Append member `i` to the entry of key `r` of the insertion-ordered
association list (Python dict `groups_dict`), creating the entry at the
end if the key is new. -/
def add_to_group : List (ℕ × List ℕ) → ℕ → ℕ → List (ℕ × List ℕ)
  | [], r, i => [(r, [i])]
  | (r', l) :: rest, r, i =>
    if r' = r then (r', l ++ [i]) :: rest
    else (r', l) :: add_to_group rest r i

/-- The grouping loop of `_cluster_questions`: `for i in range(n):
groups_dict[find(i)].append(questions[i])` (each `find` keeps
compressing the parent map). -/
def group_loop (n : ℕ) : List ℕ → (ℕ → ℕ) → List (ℕ × List ℕ) → List (ℕ × List ℕ)
  | [], _, acc => acc
  | i :: rest, p, acc =>
    let f := find_compress p n i
    group_loop n rest f.2 (add_to_group acc f.1 i)

/-- Embedding of `OptimizedQuestionDuplicateDetector._cluster_questions`
over record indices: union-find over the above-threshold pairs of the
given similarity matrix (initial parent map `list(range(n))` is the
identity), then the groups in first-discovery order of their roots. -/
def cluster_questions (sim : ℕ → ℕ → ℚ) (t : ℚ) (n : ℕ) : List (List ℕ) :=
  (group_loop n (List.range n)
    (apply_edges n (threshold_pairs sim t n) (fun x => x)) []).map Prod.snd

/-- Embedding of Python `max(group, key=self._score_question_completeness)`
over a group of record indices: the scan keeps the current best unless a
later member scores strictly higher, so the first member attaining the
maximal score wins. -/
def rep_of (qs : List Question) : List ℕ → ℕ
  | [] => 0
  | i :: rest =>
    rest.foldl
      (fun best j =>
        if score_question_completeness (qs.getD best default) <
            score_question_completeness (qs.getD j default) then j
        else best) i

/-- Removal entry `{'question': q, 'kept_instead': best, 'similarity': s}`
emitted by `remove_duplicates`. -/
structure RemovalEntry where
  question : Question
  kept_instead : Question
  similarity : ℚ
deriving DecidableEq, Repr

/-- The group loop shared by both `remove_duplicates` implementations:
a singleton group keeps its only member; a larger group keeps the
best-scoring member and emits a removal entry for every member `q` with
`q != best_question` — Python dict VALUE inequality, so members that are
value-equal to the representative produce no entry. -/
def remove_from_groups (qs : List Question) (sim : ℕ → ℕ → ℚ) :
    List (List ℕ) → List Question × List RemovalEntry
  | [] => ([], [])
  | g :: rest =>
    let tail := remove_from_groups qs sim rest
    if g.length = 1 then (qs.getD (g.headD 0) default :: tail.1, tail.2)
    else
      let best := rep_of qs g
      let kept := qs.getD best default
      (kept :: tail.1,
       ((g.filter (fun i => qs.getD i default ≠ kept)).map
          (fun i => ⟨qs.getD i default, kept, sim i best⟩)) ++ tail.2)

/-- Embedding of `QuestionDuplicateDetector.remove_duplicates` (indices;
`sim` abstracts `self.calculate_similarity` on the records at the given
indices). -/
def remove_duplicates (qs : List Question) (sim : ℕ → ℕ → ℚ) (t : ℚ) :
    List Question × List RemovalEntry :=
  if qs = [] then ([], [])
  else remove_from_groups qs sim (find_duplicate_groups qs.length sim t)

/-- Annotation fields written into a question dict by
`annotate_duplicates` (`is_duplicate`, `duplicate_group_id`,
`duplicate_representative`, `duplicate_similarity`). -/
structure Annot where
  is_duplicate : Bool
  duplicate_group_id : ℕ
  duplicate_representative : Bool
  duplicate_similarity : ℚ
deriving DecidableEq, Repr

/-- Member entry of the per-group info dict. -/
structure MemberInfo where
  question_text : String
  is_representative : Bool
  similarity : ℚ
deriving DecidableEq, Repr

/-- Per-group entry of the info dict's `groups` list. -/
structure GroupInfo where
  group_id : ℕ
  size : ℕ
  representative_text : String
  members : List MemberInfo
deriving DecidableEq, Repr

/-- Values stored in the info dict returned by `annotate_duplicates`. -/
inductive InfoVal where
  | groupsVal : List GroupInfo → InfoVal
  | natVal : ℕ → InfoVal
  | ratVal : ℚ → InfoVal
deriving DecidableEq, Repr

/-- Python `round` ties to even (banker's rounding). -/
def round_half_even (q : ℚ) : ℤ :=
  let f := ⌊q⌋
  let r := q - f
  if r < 1/2 then f
  else if 1/2 < r then f + 1
  else if f % 2 = 0 then f else f + 1

/-- Model of Python `round(float(s), 4)` on the exact rational model. -/
def round4 (q : ℚ) : ℚ := (round_half_even (q * 10000) : ℚ) / 10000

/-- The duplicate groups of size > 1 paired with their 1-based group
ids, in discovery order (the source's `group_id_counter` is incremented
only for qualifying groups). -/
def number_big_groups : ℕ → List (List ℕ) → List (ℕ × List ℕ)
  | _, [] => []
  | counter, g :: rest =>
    if g.length ≤ 1 then number_big_groups counter rest
    else (counter, g) :: number_big_groups (counter + 1) rest

/-- Annotation received by record index `i`: the fields written by the
group loop of `annotate_duplicates` if `i` lies in a group of size > 1,
`none` otherwise. (`find?` is unambiguous because the groups partition
the indices: each index is mutated by exactly one group's loop body.)
`q is representative` — Python object identity — is index equality. -/
def annot_for (qs : List Question) (sim : ℕ → ℕ → ℚ)
    (bigs : List (ℕ × List ℕ)) (i : ℕ) : Option Annot :=
  match bigs.find? (fun pr => pr.2.contains i) with
  | none => none
  | some pr =>
    let rep := rep_of qs pr.2
    let s := if i = rep then 1 else sim i rep
    some ⟨true, pr.1, i = rep, round4 s⟩

/-- The info-dict entry built for one qualifying group. -/
def group_info_of (qs : List Question) (sim : ℕ → ℕ → ℚ)
    (pr : ℕ × List ℕ) : GroupInfo :=
  let rep := rep_of qs pr.2
  { group_id := pr.1
    size := pr.2.length
    representative_text := pyTake 120 (qs.getD rep default).question
    members := pr.2.map (fun i =>
      let s := if i = rep then 1 else sim i rep
      ⟨pyTake 120 (qs.getD i default).question, i = rep, round4 s⟩) }

/-- The annotation pass shared by both `annotate_duplicates`
implementations, given the groups produced by the respective grouping
function: the output list keeps every record (a shallow copy of the
input list whose members are mutated in place — modelled as the original
record paired with its optional annotation fields), and the info dict
gains the `similarity_threshold` key in addition to the three keys of
the empty-input result. -/
def annotate_from_groups (qs : List Question) (sim : ℕ → ℕ → ℚ) (t : ℚ)
    (groups : List (List ℕ)) :
    List (Question × Option Annot) × List (String × InfoVal) :=
  let bigs := number_big_groups 1 groups
  ((List.range qs.length).map (fun i => (qs.getD i default, annot_for qs sim bigs i)),
   [("groups", InfoVal.groupsVal (bigs.map (group_info_of qs sim))),
    ("group_count", InfoVal.natVal bigs.length),
    ("duplicate_question_count", InfoVal.natVal (bigs.map (fun pr => pr.2.length)).sum),
    ("similarity_threshold", InfoVal.ratVal t)])

/-- The info dict returned on empty input (both implementations):
exactly the three keys, no `similarity_threshold`. -/
def empty_info : List (String × InfoVal) :=
  [("groups", InfoVal.groupsVal []),
   ("group_count", InfoVal.natVal 0),
   ("duplicate_question_count", InfoVal.natVal 0)]

/-- Embedding of `QuestionDuplicateDetector.annotate_duplicates`. -/
def annotate_duplicates (qs : List Question) (sim : ℕ → ℕ → ℚ) (t : ℚ) :
    List (Question × Option Annot) × List (String × InfoVal) :=
  if qs = [] then ([], empty_info)
  else annotate_from_groups qs sim t (find_duplicate_groups qs.length sim t)

/-- The TF-IDF-prefiltered similarity matrix built by
`find_duplicate_groups_optimized`: diagonal 1.0; a pair `(i, j)` with
`i < j` whose corpus TF-IDF cosine (`tfidfM`, an external oracle over
the extracted texts) reaches the prefilter threshold 0.3 gets the
detailed combined similarity (computed with the batch-precomputed
embedding cosine `embCos`), written symmetrically; every other entry
stays 0.0. -/
def optimized_similarity_entry (ctx : NLPContext) (orc : SignalOracles)
    (texts : ℕ → String) (tfidfM : ℕ → ℕ → ℚ) (embCos : ℕ → ℕ → Option ℚ)
    (i j : ℕ) : ℚ :=
  if i = j then 1
  else if tfidfM (min i j) (max i j) ≥ 0.3 then
    calculate_similarity_optimized ctx orc (texts (min i j)) (texts (max i j))
      (embCos (min i j) (max i j))
  else 0

/-- Embedding of
`OptimizedQuestionDuplicateDetector.find_duplicate_groups_optimized`:
fewer than two records yield singleton groups; otherwise the prefiltered
similarity matrix is clustered with union-find. -/
def find_duplicate_groups_optimized (ctx : NLPContext) (orc : SignalOracles)
    (qs : List Question) (tfidfM : ℕ → ℕ → ℚ) (embCos : ℕ → ℕ → Option ℚ)
    (t : ℚ) : List (List ℕ) :=
  if qs.length < 2 then (List.range qs.length).map (fun i => [i])
  else
    cluster_questions
      (optimized_similarity_entry ctx orc
        (fun i => extract_question_text (qs.getD i default)) tfidfM embCos)
      t qs.length

/-- Embedding of `OptimizedQuestionDuplicateDetector.annotate_duplicates`
(its per-member similarity recomputation calls
`_calculate_similarity_optimized` without embeddings). -/
def annotate_duplicates_optimized (ctx : NLPContext) (orc : SignalOracles)
    (qs : List Question) (tfidfM : ℕ → ℕ → ℚ) (embCos : ℕ → ℕ → Option ℚ)
    (t : ℚ) :
    List (Question × Option Annot) × List (String × InfoVal) :=
  if qs = [] then ([], empty_info)
  else
    annotate_from_groups qs
      (fun i j => calculate_similarity_optimized ctx orc
        (extract_question_text (qs.getD i default))
        (extract_question_text (qs.getD j default)) none)
      t (find_duplicate_groups_optimized ctx orc qs tfidfM embCos t)

/-- Embedding of `OptimizedQuestionDuplicateDetector.remove_duplicates`. -/
def remove_duplicates_optimized (ctx : NLPContext) (orc : SignalOracles)
    (qs : List Question) (tfidfM : ℕ → ℕ → ℚ) (embCos : ℕ → ℕ → Option ℚ)
    (t : ℚ) : List Question × List RemovalEntry :=
  if qs = [] then ([], [])
  else
    remove_from_groups qs
      (fun i j => calculate_similarity_optimized ctx orc
        (extract_question_text (qs.getD i default))
        (extract_question_text (qs.getD j default)) none)
      (find_duplicate_groups_optimized ctx orc qs tfidfM embCos t)

/-- Helper: the word-set Jaccard value lies in `[0, 1]`. -/
theorem exact_similarity_bounds (a b : String) :
    0 ≤ calculate_exact_similarity a b ∧ calculate_exact_similarity a b ≤ 1 := by
  unfold calculate_exact_similarity
  dsimp only
  split
  · exact ⟨zero_le_one, le_refl 1⟩
  split
  · norm_num
  split
  · norm_num
  · rename_i hne hemp huni
    have hpos : (0 : ℚ) < ((pyWords (normalize_text a)).toFinset ∪ (pyWords (normalize_text b)).toFinset).card := by
      exact_mod_cast Finset.card_pos.mpr (Finset.nonempty_iff_ne_empty.mpr huni)
    constructor
    · positivity
    · rw [div_le_one hpos]
      exact_mod_cast Finset.card_le_card Finset.inter_subset_union

/-- Helper: the keyword Jaccard value lies in `[0, 1]`. -/
theorem keyword_similarity_bounds (ctx : NLPContext) (a b : String) :
    0 ≤ calculate_keyword_similarity ctx a b ∧ calculate_keyword_similarity ctx a b ≤ 1 := by
  unfold calculate_keyword_similarity
  dsimp only
  split
  · norm_num
  split
  · norm_num
  · rename_i hemp huni
    have hpos : (0 : ℚ) < ((extract_keywords ctx a) ∪ (extract_keywords ctx b)).card := by
      exact_mod_cast Finset.card_pos.mpr (Finset.nonempty_iff_ne_empty.mpr huni)
    constructor
    · positivity
    · rw [div_le_one hpos]
      exact_mod_cast Finset.card_le_card Finset.inter_subset_union

/-- C3 theorem (amended): whenever both extracted texts are non-empty,
`calculate_similarity` and `_calculate_similarity_optimized` return
exactly `exact*0.3 + semantic*0.4 + tfidf*0.2 + keyword*0.1`; when either
text is empty both return 0.0 without consulting the signals; and
whenever the two external signal values lie in `[0,1]` the returned value
lies in `[0,1]` (the two embedded signals always lie in `[0,1]`). -/
theorem calculate_similarity_formula_and_bounds
    (ctx : NLPContext) (orc : SignalOracles) (q1 q2 : Question) (embCos : Option ℚ) :
    (extract_question_text q1 ≠ "" → extract_question_text q2 ≠ "" →
      calculate_similarity ctx orc q1 q2 =
        calculate_exact_similarity (extract_question_text q1) (extract_question_text q2) * 0.3 +
        semantic_signal orc (extract_question_text q1) (extract_question_text q2) * 0.4 +
        orc.tfidfPair (extract_question_text q1) (extract_question_text q2) * 0.2 +
        calculate_keyword_similarity ctx (extract_question_text q1) (extract_question_text q2) * 0.1) ∧
    (extract_question_text q1 = "" ∨ extract_question_text q2 = "" →
      calculate_similarity ctx orc q1 q2 = 0) ∧
    ((0 ≤ semantic_signal orc (extract_question_text q1) (extract_question_text q2) ∧
        semantic_signal orc (extract_question_text q1) (extract_question_text q2) ≤ 1) →
      (0 ≤ orc.tfidfPair (extract_question_text q1) (extract_question_text q2) ∧
        orc.tfidfPair (extract_question_text q1) (extract_question_text q2) ≤ 1) →
      0 ≤ calculate_similarity ctx orc q1 q2 ∧ calculate_similarity ctx orc q1 q2 ≤ 1) ∧
    (∀ text1 text2 : String, text1 ≠ "" → text2 ≠ "" →
      calculate_similarity_optimized ctx orc text1 text2 embCos =
        calculate_exact_similarity text1 text2 * 0.3 +
        (match embCos with | none => 0 | some v => v) * 0.4 +
        orc.tfidfPair text1 text2 * 0.2 +
        calculate_keyword_similarity ctx text1 text2 * 0.1) ∧
    (∀ text1 text2 : String, text1 = "" ∨ text2 = "" →
      calculate_similarity_optimized ctx orc text1 text2 embCos = 0) ∧
    (∀ text1 text2 : String,
      (0 ≤ (match embCos with | none => (0 : ℚ) | some v => v) ∧
        (match embCos with | none => (0 : ℚ) | some v => v) ≤ 1) →
      (0 ≤ orc.tfidfPair text1 text2 ∧ orc.tfidfPair text1 text2 ≤ 1) →
      0 ≤ calculate_similarity_optimized ctx orc text1 text2 embCos ∧
        calculate_similarity_optimized ctx orc text1 text2 embCos ≤ 1) := by
  refine ⟨?_, ?_, ?_, ?_, ?_, ?_⟩
  · intro h1 h2
    unfold calculate_similarity
    rw [if_neg]
    push_neg
    exact ⟨h1, h2⟩
  · intro h
    unfold calculate_similarity
    rw [if_pos h]
  · intro hsem htf
    by_cases hemp : extract_question_text q1 = "" ∨ extract_question_text q2 = ""
    · unfold calculate_similarity
      rw [if_pos hemp]
      norm_num
    · unfold calculate_similarity
      rw [if_neg hemp]
      obtain ⟨he0, he1⟩ := exact_similarity_bounds (extract_question_text q1) (extract_question_text q2)
      obtain ⟨hk0, hk1⟩ := keyword_similarity_bounds ctx (extract_question_text q1) (extract_question_text q2)
      obtain ⟨hs0, hs1⟩ := hsem
      obtain ⟨ht0, ht1⟩ := htf
      constructor
      · have h03 : (0:ℚ) ≤ 0.3 := by norm_num
        positivity
      · nlinarith
  · intro text1 text2 h1 h2
    unfold calculate_similarity_optimized
    rw [if_neg]
    push_neg
    exact ⟨h1, h2⟩
  · intro text1 text2 h
    unfold calculate_similarity_optimized
    rw [if_pos h]
  · intro text1 text2 hsem htf
    by_cases hemp : text1 = "" ∨ text2 = ""
    · unfold calculate_similarity_optimized
      rw [if_pos hemp]
      norm_num
    · unfold calculate_similarity_optimized
      rw [if_neg hemp]
      obtain ⟨he0, he1⟩ := exact_similarity_bounds text1 text2
      obtain ⟨hk0, hk1⟩ := keyword_similarity_bounds ctx text1 text2
      obtain ⟨hs0, hs1⟩ := hsem
      obtain ⟨ht0, ht1⟩ := htf
      constructor
      · have h03 : (0:ℚ) ≤ 0.3 := by norm_num
        positivity
      · nlinarith

/-- C3 counterexample: for two records whose extracted texts are empty
(question field `""`), `calculate_similarity` returns 0.0, while the
weighted combination of the four signal values is 0.3 (the exact/lexical
signal of two empty texts is 1.0) — with the semantic model unavailable
and the pair TF-IDF 0.0 (its vectorizer raises on an empty vocabulary). -/
theorem calculate_similarity_empty_pair_counterexample :
    calculate_similarity ⟨pyWords, id, ∅⟩ ⟨none, fun _ _ => 0⟩ {} {} = 0 ∧
    calculate_exact_similarity (extract_question_text {}) (extract_question_text {}) * 0.3 +
      semantic_signal ⟨none, fun _ _ => 0⟩ (extract_question_text {}) (extract_question_text {}) * 0.4 +
      (fun (_ _ : String) => (0:ℚ)) (extract_question_text {}) (extract_question_text {}) * 0.2 +
      calculate_keyword_similarity ⟨pyWords, id, ∅⟩ (extract_question_text {}) (extract_question_text {}) * 0.1 =
      0.3 := by
  constructor <;> with_unfolding_all decide

/-- C3 witness: the formula branch of the theorem applied to a concrete
pair of records with non-empty texts. -/
theorem calculate_similarity_formula_witness :
    calculate_similarity ⟨pyWords, id, ∅⟩ ⟨none, fun _ _ => 0⟩
        {question := "aaa bbb"} {question := "ccc ddd"} =
      calculate_exact_similarity (extract_question_text {question := "aaa bbb"})
          (extract_question_text {question := "ccc ddd"}) * 0.3 +
        semantic_signal ⟨none, fun _ _ => 0⟩ (extract_question_text {question := "aaa bbb"})
          (extract_question_text {question := "ccc ddd"}) * 0.4 +
        SignalOracles.tfidfPair ⟨none, fun _ _ => 0⟩ (extract_question_text {question := "aaa bbb"})
          (extract_question_text {question := "ccc ddd"}) * 0.2 +
        calculate_keyword_similarity ⟨pyWords, id, ∅⟩ (extract_question_text {question := "aaa bbb"})
          (extract_question_text {question := "ccc ddd"}) * 0.1 :=
  (calculate_similarity_formula_and_bounds ⟨pyWords, id, ∅⟩ ⟨none, fun _ _ => 0⟩
      {question := "aaa bbb"} {question := "ccc ddd"} none).1
    (by with_unfolding_all decide) (by with_unfolding_all decide)

/-- C7 theorem (amended): the keyword scorer returns 0.0 whenever either
text yields no keywords (in particular on any empty input, whose keyword
set is empty); the exact/lexical scorer returns 0.0 when exactly one
side's normalized word set is empty; but when both inputs normalize to
the empty string the exact/lexical scorer returns 1.0, because the
normalized-equality branch precedes the emptiness check. -/
theorem signal_scorers_on_empty_inputs (ctx : NLPContext) (t1 t2 : String) :
    (extract_keywords ctx t1 = ∅ ∨ extract_keywords ctx t2 = ∅ →
      calculate_keyword_similarity ctx t1 t2 = 0) ∧
    (normalize_text t1 = "" → normalize_text t2 ≠ "" →
      calculate_exact_similarity t1 t2 = 0 ∧ calculate_exact_similarity t2 t1 = 0) ∧
    (normalize_text t1 = "" → normalize_text t2 = "" →
      calculate_exact_similarity t1 t2 = 1) := by
  refine ⟨?_, ?_, ?_⟩
  · intro h
    unfold calculate_keyword_similarity
    rw [if_pos h]
  · intro h1 h2
    have hw1 : (pyWords (normalize_text t1)).toFinset = ∅ := by
      rw [h1]
      rfl
    constructor
    · unfold calculate_exact_similarity
      rw [if_neg (by rw [h1]; exact fun h => h2 h.symm), if_pos (Or.inl hw1)]
    · unfold calculate_exact_similarity
      rw [if_neg (by rw [h1]; exact h2), if_pos (Or.inr hw1)]
  · intro h1 h2
    unfold calculate_exact_similarity
    rw [if_pos (h1.trans h2.symm)]

/-- C7 witness: the theorem applied to the empty string against a
non-empty text, and to two texts with no keywords. -/
theorem signal_scorers_on_empty_inputs_witness :
    calculate_keyword_similarity ⟨pyWords, id, ∅⟩ "" "abcd" = 0 ∧
    calculate_exact_similarity "" "abcd" = 0 := by
  have h := signal_scorers_on_empty_inputs ⟨pyWords, id, ∅⟩ "" "abcd"
  exact ⟨h.1 (Or.inl (by with_unfolding_all decide)),
    (h.2.1 (by with_unfolding_all decide) (by with_unfolding_all decide)).1⟩

/-- C7 counterexample: the claim says every scorer returns 0.0 when
either input is empty, but the exact/lexical scorer on two empty inputs
returns 1.0 (both normalize to `""`, so the equality branch fires). -/
theorem exact_similarity_both_empty_counterexample :
    calculate_exact_similarity "" "" = 1 := by
  with_unfolding_all decide

/-- C8 theorem (amended): on inputs that are identical after
normalization the exact/lexical scorer yields 1.0, and the keyword
scorer yields 1.0 exactly when the (shared) keyword set is non-empty —
when no keywords are extracted it yields 0.0 instead. -/
theorem identity_signal_values (ctx : NLPContext) (t1 t2 : String)
    (hnorm : normalize_text t1 = normalize_text t2) :
    calculate_exact_similarity t1 t2 = 1 ∧
    (extract_keywords ctx t1 ≠ ∅ → calculate_keyword_similarity ctx t1 t2 = 1) ∧
    (extract_keywords ctx t1 = ∅ → calculate_keyword_similarity ctx t1 t2 = 0) := by
  have hkw : extract_keywords ctx t2 = extract_keywords ctx t1 := by
    unfold extract_keywords
    rw [hnorm]
  refine ⟨?_, ?_, ?_⟩
  · unfold calculate_exact_similarity
    rw [if_pos hnorm]
  · intro hne
    unfold calculate_keyword_similarity
    rw [hkw, if_neg (by simp [hne]), Finset.inter_self, Finset.union_self]
    rw [if_neg hne, div_self]
    exact_mod_cast Finset.card_ne_zero_of_mem
      ((Finset.nonempty_iff_ne_empty.mpr hne).choose_spec)
  · intro he
    unfold calculate_keyword_similarity
    rw [if_pos (Or.inl he)]

/-- C8 witness: the theorem applied to a concrete text with keywords
(identical on both sides) and to one without. -/
theorem identity_signal_values_witness :
    calculate_exact_similarity "wolf fox" "wolf fox" = 1 ∧
    calculate_keyword_similarity ⟨pyWords, id, ∅⟩ "wolf fox" "wolf fox" = 1 := by
  have h := identity_signal_values ⟨pyWords, id, ∅⟩ "wolf fox" "wolf fox" rfl
  exact ⟨h.1, h.2.1 (by with_unfolding_all decide)⟩

/-- C8 counterexample: a text identical to itself whose tokens are all
too short to be keywords — the keyword scorer returns 0.0, not the
claimed maximal 1.0. -/
theorem keyword_identity_counterexample :
    calculate_keyword_similarity ⟨pyWords, id, ∅⟩ "ab" "ab" = 0 := by
  with_unfolding_all decide

/-- C6 theorem (amended): constructing either detector without an
explicit threshold uses 0.6, as does the optimized wrapper; only the
baseline wrapper `annotate_duplicates_in_questions` and the (unimported)
config constant `DEFAULT_SIMILARITY_THRESHOLD` default to 0.8; every one
of these defaults lies in the valid range `[0, 1]`. -/
theorem default_threshold_values :
    questionDuplicateDetector_default_threshold = 3/5 ∧
    optimizedQuestionDuplicateDetector_default_threshold = 3/5 ∧
    annotate_duplicates_in_questions_optimized_default_threshold = 3/5 ∧
    annotate_duplicates_in_questions_default_threshold = 4/5 ∧
    DEFAULT_SIMILARITY_THRESHOLD = 4/5 ∧
    (0 ≤ questionDuplicateDetector_default_threshold ∧
      questionDuplicateDetector_default_threshold ≤ 1) ∧
    (0 ≤ annotate_duplicates_in_questions_default_threshold ∧
      annotate_duplicates_in_questions_default_threshold ≤ 1) := by
  refine ⟨?_, ?_, ?_, ?_, ?_, ⟨?_, ?_⟩, ⟨?_, ?_⟩⟩ <;> with_unfolding_all decide

/-- C6 counterexample: the default threshold of
`QuestionDuplicateDetector.__init__` is 0.6, not the claimed 0.8. -/
theorem default_threshold_counterexample :
    questionDuplicateDetector_default_threshold ≠ 4/5 := by
  with_unfolding_all decide

/-- Helper: Python `max(key=f)` over `i :: l` returns the first element
attaining the maximal key: it lies in the list, its key dominates every
member, and everything strictly before it has a strictly smaller key. -/
theorem foldl_argmax_first (f : ℕ → ℕ) :
    ∀ (l : List ℕ) (i : ℕ),
      ∃ pre post,
        i :: l = pre ++ (l.foldl (fun best j => if f best < f j then j else best) i) :: post ∧
        (∀ j ∈ i :: l, f j ≤ f (l.foldl (fun best j => if f best < f j then j else best) i)) ∧
        (∀ j ∈ pre, f j < f (l.foldl (fun best j => if f best < f j then j else best) i)) := by
  intro l
  induction l with
  | nil =>
    intro i
    exact ⟨[], [], rfl, by simp, by simp⟩
  | cons j l ih =>
    intro i
    by_cases hij : f i < f j
    · obtain ⟨pre, post, heq, hdom, hpre⟩ := ih j
      have hstep : (j :: l).foldl (fun best k => if f best < f k then k else best) i =
          l.foldl (fun best k => if f best < f k then k else best) j := by
        simp [List.foldl_cons, if_pos hij]
      have hjle : f j ≤ f (l.foldl (fun best k => if f best < f k then k else best) j) :=
        hdom j (List.mem_cons_self j l)
      refine ⟨i :: pre, post, ?_, ?_, ?_⟩
      · rw [hstep]
        simpa using heq
      · intro x hx
        rw [hstep]
        rcases List.mem_cons.mp hx with hxi | hx2
        · rw [hxi]
          exact le_of_lt (lt_of_lt_of_le hij hjle)
        · exact hdom x hx2
      · intro x hx
        rw [hstep]
        rcases List.mem_cons.mp hx with hxi | hx2
        · rw [hxi]
          exact lt_of_lt_of_le hij hjle
        · exact hpre x hx2
    · obtain ⟨pre, post, heq, hdom, hpre⟩ := ih i
      have hstep : (j :: l).foldl (fun best k => if f best < f k then k else best) i =
          l.foldl (fun best k => if f best < f k then k else best) i := by
        simp [List.foldl_cons, if_neg hij]
      cases pre with
      | nil =>
        rw [List.nil_append] at heq
        have hres : l.foldl (fun best k => if f best < f k then k else best) i = i := by
          injection heq with h1 _
          exact h1.symm
        refine ⟨[], j :: l, ?_, ?_, ?_⟩
        · rw [hstep, hres]
          rfl
        · intro x hx
          rw [hstep]
          rcases List.mem_cons.mp hx with hxi | hx2
          · rw [hxi]
            exact hdom i (List.mem_cons_self i l)
          · rcases List.mem_cons.mp hx2 with hxj | hx3
            · rw [hxj, hres]
              exact le_of_not_lt hij
            · exact hdom x (List.mem_cons_of_mem i hx3)
        · intro x hx
          simp at hx
      | cons p0 pre' =>
        rw [List.cons_append] at heq
        have h1 : i = p0 := by
          injection heq with h1 _
        have h2 : l = pre' ++ (l.foldl (fun best k => if f best < f k then k else best) i) :: post := by
          injection heq with _ h2
        have hi_lt : f i < f (l.foldl (fun best k => if f best < f k then k else best) i) := by
          have h3 := hpre p0 (List.mem_cons_self p0 pre')
          rwa [← h1] at h3
        refine ⟨i :: j :: pre', post, ?_, ?_, ?_⟩
        · rw [hstep]
          simp only [List.cons_append]
          rw [← h2]
        · intro x hx
          rw [hstep]
          rcases List.mem_cons.mp hx with hxi | hx2
          · rw [hxi]
            exact hdom i (List.mem_cons_self i l)
          · rcases List.mem_cons.mp hx2 with hxj | hx3
            · rw [hxj]
              exact le_trans (le_of_not_lt hij) (le_of_lt hi_lt)
            · exact hdom x (List.mem_cons_of_mem i hx3)
        · intro x hx
          rw [hstep]
          rcases List.mem_cons.mp hx with hxi | hx2
          · rw [hxi]
            exact hi_lt
          · rcases List.mem_cons.mp hx2 with hxj | hx3
            · rw [hxj]
              exact lt_of_le_of_lt (le_of_not_lt hij) hi_lt
            · refine hpre x ?_
              rw [← h1]
              exact List.mem_cons_of_mem i hx3

/-- C5 theorem: the representative chosen for a (non-empty) group is a
member of the group, its completeness score (question length, plus
non-empty option lengths for multiple choice, plus twice the answer
length, plus 10 for a category, plus 20 for an image) dominates every
member's score, and it is the first member in group order — i.e. original
input order — attaining that maximal score. -/
theorem representative_selection_spec (qs : List Question) (g : List ℕ)
    (hg : g ≠ []) :
    rep_of qs g ∈ g ∧
    (∀ j ∈ g, score_question_completeness (qs.getD j default) ≤
        score_question_completeness (qs.getD (rep_of qs g) default)) ∧
    ∃ pre post, g = pre ++ rep_of qs g :: post ∧
      ∀ j ∈ pre, score_question_completeness (qs.getD j default) <
        score_question_completeness (qs.getD (rep_of qs g) default) := by
  match g, hg with
  | i :: rest, _ =>
    obtain ⟨pre, post, heq, hdom, hpre⟩ :=
      foldl_argmax_first (fun k => score_question_completeness (qs.getD k default)) rest i
    have hrep : rep_of qs (i :: rest) =
        rest.foldl (fun best j =>
          if score_question_completeness (qs.getD best default) <
              score_question_completeness (qs.getD j default) then j else best) i := rfl
    refine ⟨?_, ?_, pre, post, ?_, ?_⟩
    · rw [hrep, heq]
      exact List.mem_append_right pre (List.mem_cons_self _ post)
    · intro j hj
      rw [hrep]
      exact hdom j hj
    · rw [hrep]
      exact heq
    · intro j hj
      rw [hrep]
      exact hpre j hj

/-- C5 witness: the theorem applied to a concrete two-member group where
the second record is more complete — membership and dominance at that
group. -/
theorem representative_selection_witness :
    rep_of [{question := "aa"}, {question := "bbbb"}] [0, 1] ∈ [0, 1] ∧
    score_question_completeness
        (([{question := "aa"}, {question := "bbbb"}] : List Question).getD 0 default) ≤
      score_question_completeness
        (([{question := "aa"}, {question := "bbbb"}] : List Question).getD
          (rep_of [{question := "aa"}, {question := "bbbb"}] [0, 1]) default) :=
  ⟨(representative_selection_spec [{question := "aa"}, {question := "bbbb"}] [0, 1]
      (by with_unfolding_all decide)).1,
   (representative_selection_spec [{question := "aa"}, {question := "bbbb"}] [0, 1]
      (by with_unfolding_all decide)).2.1 0 (by with_unfolding_all decide)⟩

/-- Concrete instantiation of the external NLP services for closed runs:
the `str.split` tokenizer fallback, a stemmer that leaves the sample
words of this file unchanged (as the Porter stemmer does on them), and
an empty stop-word list (the `except` path of the stop-word load). -/
def sample_ctx : NLPContext := ⟨pyWords, id, ∅⟩

/-- Concrete degraded-mode oracles: the sentence model is unavailable
(semantic signal 0.0 for all pairs) and the pair TF-IDF vectorizer
yields 0.0. -/
def degraded_orc : SignalOracles := ⟨none, fun _ _ => 0⟩

/-- The spec scenario input: a batch of 5 identical records. -/
def five_identical : List Question := List.replicate 5 {question := "aaa bbb"}

/-- Pairwise similarity of the batch of 5 identical records under the
degraded oracles (`calculate_similarity` on the records at two indices;
each pair of distinct indices scores `0.3*1 + 0.1*1 = 0.4`). -/
def five_sim : ℕ → ℕ → ℚ :=
  fun i j => calculate_similarity sample_ctx degraded_orc
    (five_identical.getD i default) (five_identical.getD j default)

/-- C4 theorem (amended): remove mode keeps exactly one record per
group — the group's representative — and emits one removal entry
`{question, kept_instead, similarity}` for every member of a group of
size > 1 that is not value-equal to the representative, each citing
the representative as `kept_instead`; consequently a batch of 5
identical records yields 1 kept record and 0 removal entries (every
non-representative member is value-equal to the kept record, so the
`q != best_question` test emits nothing). -/
theorem remove_duplicates_spec :
    (∀ (qs : List Question) (sim : ℕ → ℕ → ℚ) (groups : List (List ℕ)),
      (remove_from_groups qs sim groups).1 =
        groups.map (fun g => qs.getD (rep_of qs g) default) ∧
      (∀ e ∈ (remove_from_groups qs sim groups).2,
        e.question ≠ e.kept_instead ∧
        ∃ g ∈ groups, 1 < g.length ∧
          e.kept_instead = qs.getD (rep_of qs g) default ∧
          ∃ i ∈ g, e.question = qs.getD i default ∧
            e.similarity = sim i (rep_of qs g)) ∧
      (∀ g ∈ groups, 1 < g.length → ∀ i ∈ g,
        qs.getD i default ≠ qs.getD (rep_of qs g) default →
        (⟨qs.getD i default, qs.getD (rep_of qs g) default, sim i (rep_of qs g)⟩ : RemovalEntry) ∈
          (remove_from_groups qs sim groups).2) ∧
      ((remove_from_groups qs sim groups).2.length =
        (groups.map (fun g => if g.length = 1 then 0 else
          (g.filter (fun i => qs.getD i default ≠ qs.getD (rep_of qs g) default)).length)).sum)) ∧
    (remove_duplicates five_identical five_sim (7/20)).1.length = 1 ∧
    (remove_duplicates five_identical five_sim (7/20)).2 = [] := by
  refine ⟨?_, ?_, ?_⟩
  · intro qs sim groups
    induction groups with
    | nil =>
      refine ⟨rfl, ?_, ?_, rfl⟩
      · intro e he
        simp [remove_from_groups] at he
      · intro g hg
        simp at hg
    | cons g rest ih =>
      obtain ⟨ihA, ihB, ihC, ihD⟩ := ih
      by_cases hone : g.length = 1
      · obtain ⟨x, hx⟩ := List.length_eq_one.mp hone
        subst hx
        have hunf1 : (remove_from_groups qs sim ([x] :: rest)).1 =
            (qs.getD x default) :: (remove_from_groups qs sim rest).1 := rfl
        have hunf2 : (remove_from_groups qs sim ([x] :: rest)).2 =
            (remove_from_groups qs sim rest).2 := rfl
        refine ⟨?_, ?_, ?_, ?_⟩
        · rw [hunf1, List.map_cons, ihA]
          rfl
        · intro e he
          rw [hunf2] at he
          obtain ⟨hne, g', hg', hb, hrest⟩ := ihB e he
          exact ⟨hne, g', List.mem_cons_of_mem _ hg', hb, hrest⟩
        · intro g' hg' hbig i hi hne
          rcases List.mem_cons.mp hg' with h1 | h2
          · exfalso
            rw [h1] at hbig
            simp at hbig
          · rw [hunf2]
            exact ihC g' h2 hbig i hi hne
        · rw [hunf2, List.map_cons, List.sum_cons, ihD]
          show _ = 0 + _
          rw [Nat.zero_add]
      · have hunf1 : (remove_from_groups qs sim (g :: rest)).1 =
            (qs.getD (rep_of qs g) default) :: (remove_from_groups qs sim rest).1 := by
          simp [remove_from_groups, hone]
        have hunf2 : (remove_from_groups qs sim (g :: rest)).2 =
            ((g.filter (fun i => qs.getD i default ≠ qs.getD (rep_of qs g) default)).map
              (fun i => (⟨qs.getD i default, qs.getD (rep_of qs g) default,
                sim i (rep_of qs g)⟩ : RemovalEntry))) ++
            (remove_from_groups qs sim rest).2 := by
          simp [remove_from_groups, hone]
        refine ⟨?_, ?_, ?_, ?_⟩
        · rw [hunf1, List.map_cons, ihA]
        · intro e he
          rw [hunf2] at he
          rcases List.mem_append.mp he with hnew | hold
          · obtain ⟨i, hi, hei⟩ := List.mem_map.mp hnew
            obtain ⟨hig, hiq⟩ := List.mem_filter.mp hi
            have hiq' : qs.getD i default ≠ qs.getD (rep_of qs g) default := by
              simpa using hiq
            have hglen : 1 < g.length := by
              have h0 : 0 < g.length := by
                cases g with
                | nil => simp at hig
                | cons y ys => simp
              omega
            refine ⟨?_, g, List.mem_cons_self g rest, hglen, ?_, i, hig, ?_, ?_⟩
            · rw [← hei]
              exact hiq'
            · rw [← hei]
            · rw [← hei]
            · rw [← hei]
          · obtain ⟨hne, g', hg', hb, hrest⟩ := ihB e hold
            exact ⟨hne, g', List.mem_cons_of_mem _ hg', hb, hrest⟩
        · intro g' hg' hbig i hi hne
          rw [hunf2]
          rcases List.mem_cons.mp hg' with h1 | h2
          · subst h1
            refine List.mem_append_left _ ?_
            refine List.mem_map_of_mem _ (List.mem_filter.mpr ⟨hi, ?_⟩)
            simpa using hne
          · exact List.mem_append_right _ (ihC g' h2 hbig i hi hne)
        · rw [hunf2, List.length_append, List.length_map, List.map_cons, List.sum_cons,
            if_neg hone, ihD]
  · with_unfolding_all decide
  · with_unfolding_all decide

/-- C4 counterexample: on the claim's own scenario — a batch of 5
identical records — remove mode returns 1 kept record but 0 removal
entries, not the claimed 4: every non-representative member is
value-equal to the representative, and the source compares with `!=`. -/
theorem remove_identical_counterexample :
    (remove_duplicates (List.replicate 5 ({question := "aaa bbb"} : Question))
        (fun i j => calculate_similarity ⟨pyWords, id, ∅⟩ ⟨none, fun _ _ => 0⟩
          ((List.replicate 5 ({question := "aaa bbb"} : Question)).getD i default)
          ((List.replicate 5 ({question := "aaa bbb"} : Question)).getD j default))
        (7/20)).2.length = 0 ∧
    (remove_duplicates (List.replicate 5 ({question := "aaa bbb"} : Question))
        (fun i j => calculate_similarity ⟨pyWords, id, ∅⟩ ⟨none, fun _ _ => 0⟩
          ((List.replicate 5 ({question := "aaa bbb"} : Question)).getD i default)
          ((List.replicate 5 ({question := "aaa bbb"} : Question)).getD j default))
        (7/20)).1.length = 1 := by
  constructor <;> with_unfolding_all decide

/-- Invariant of the union-find parent maps arising in
`_cluster_questions`: identity outside `0..n-1`, closed on `0..n-1`,
and every parent chain reaches a fixed point. -/
def UFInv (n : ℕ) (p : ℕ → ℕ) : Prop :=
  (∀ x, n ≤ x → p x = x) ∧ (∀ x, x < n → p x < n) ∧
  (∀ x, ∃ k, p (p^[k] x) = p^[k] x)

/-- Helper: `y` is on the parent chain of `x`. -/
def Reaches (p : ℕ → ℕ) (x y : ℕ) : Prop := ∃ k, p^[k] x = y

theorem reaches_self (p : ℕ → ℕ) (x : ℕ) : Reaches p x x := ⟨0, rfl⟩

theorem reaches_parent (p : ℕ → ℕ) (x : ℕ) : Reaches p x (p x) :=
  ⟨1, Function.iterate_one p ▸ rfl⟩

theorem reaches_trans {p : ℕ → ℕ} {x y z : ℕ}
    (h1 : Reaches p x y) (h2 : Reaches p y z) : Reaches p x z := by
  obtain ⟨k1, hk1⟩ := h1
  obtain ⟨k2, hk2⟩ := h2
  exact ⟨k2 + k1, by rw [Function.iterate_add_apply, hk1, hk2]⟩

theorem iterate_fix {p : ℕ → ℕ} {r : ℕ} (h : p r = r) : ∀ m, p^[m] r = r := by
  intro m
  induction m with
  | zero => rfl
  | succ m ih => rw [Function.iterate_succ_apply', ih, h]

/-- Helper: a chain has at most one reachable fixed point. -/
theorem fix_unique {p : ℕ → ℕ} {x r s : ℕ} (hr : p r = r) (hs : p s = s)
    (h1 : Reaches p x r) (h2 : Reaches p x s) : r = s := by
  obtain ⟨ka, ha⟩ := h1
  obtain ⟨kb, hb⟩ := h2
  rcases le_total ka kb with hab | hba
  · have : p^[kb] x = r := by
      have hsplit : kb = (kb - ka) + ka := by omega
      rw [hsplit, Function.iterate_add_apply, ha, iterate_fix hr]
    rw [← hb, this]
  · have : p^[ka] x = s := by
      have hsplit : ka = (ka - kb) + kb := by omega
      rw [hsplit, Function.iterate_add_apply, hb, iterate_fix hs]
    rw [← ha, this]

/-- Helper: the fuelled root finder lands on a fixed point of the chain
whenever the chain fixes within the fuel. -/
theorem root_aux_spec {p : ℕ → ℕ} :
    ∀ (fuel x : ℕ), (∃ k, k ≤ fuel ∧ p (p^[k] x) = p^[k] x) →
      p (root_aux p fuel x) = root_aux p fuel x ∧ Reaches p x (root_aux p fuel x) := by
  intro fuel
  induction fuel with
  | zero =>
    intro x hk
    obtain ⟨k, hk0, hfix⟩ := hk
    have : k = 0 := Nat.le_zero.mp hk0
    subst this
    exact ⟨by simpa using hfix, reaches_self p x⟩
  | succ fuel ih =>
    intro x hk
    by_cases hx : p x = x
    · simp only [root_aux, if_pos hx]
      exact ⟨hx, reaches_self p x⟩
    · obtain ⟨k, hk0, hfix⟩ := hk
      have hkpos : k ≠ 0 := by
        intro h0
        subst h0
        exact hx (by simpa using hfix)
      obtain ⟨k', rfl⟩ := Nat.exists_eq_succ_of_ne_zero hkpos
      have hfix' : p (p^[k'] (p x)) = p^[k'] (p x) := by
        rwa [← Function.iterate_succ_apply]
      have hsub := ih (p x) ⟨k', Nat.lt_succ_iff.mp (Nat.lt_of_lt_of_le (Nat.lt_succ_self k') hk0), hfix'⟩
      simp only [root_aux, if_neg hx]
      exact ⟨hsub.1, reaches_trans (reaches_parent p x) hsub.2⟩

/-- Helper: iterates stay inside `0..n-1`. -/
theorem iterate_lt {n : ℕ} {p : ℕ → ℕ} (hcl : ∀ x, x < n → p x < n)
    {x : ℕ} (hx : x < n) : ∀ m, p^[m] x < n := by
  intro m
  induction m with
  | zero => exact hx
  | succ m ih => rw [Function.iterate_succ_apply']; exact hcl _ ih

/-- Helper: under the invariant every chain fixes within `n` steps — the
nodes of a minimal chain are pairwise distinct members of `0..n-1`. -/
theorem exists_fix_le {n : ℕ} {p : ℕ → ℕ}
    (hout : ∀ x, n ≤ x → p x = x) (hcl : ∀ x, x < n → p x < n)
    (x : ℕ) (hfix : ∃ k, p (p^[k] x) = p^[k] x) :
    ∃ k, k ≤ n ∧ p (p^[k] x) = p^[k] x := by
  by_cases hx : x < n
  · classical
    have hk0 := Nat.find_spec hfix
    set k0 := Nat.find hfix with hk0def
    have hmin : ∀ m, m < k0 → ¬ p (p^[m] x) = p^[m] x := fun m hm => Nat.find_min hfix hm
    have key : ∀ a b, a < b → b ≤ k0 → p^[a] x ≠ p^[b] x := by
      intro a b hab hbk heq
      have hshift : ∀ j, p^[a + j] x = p^[b + j] x := by
        intro j
        induction j with
        | zero => simpa using heq
        | succ j ihj =>
          have h1 : a + (j + 1) = (a + j) + 1 := by omega
          have h2 : b + (j + 1) = (b + j) + 1 := by omega
          rw [h1, h2, Function.iterate_succ_apply', Function.iterate_succ_apply', ihj]
      have hc : p^[k0 - (b - a)] x = p^[k0] x := by
        have h1 : k0 - (b - a) = a + (k0 - b) := by omega
        have h2 : k0 = b + (k0 - b) := by omega
        rw [h1, hshift (k0 - b), ← h2]
      have : p (p^[k0 - (b - a)] x) = p^[k0 - (b - a)] x := by
        rw [hc]
        exact hk0
      exact hmin (k0 - (b - a)) (by omega) this
    by_cases hkn : k0 ≤ n
    · exact ⟨k0, hkn, hk0⟩
    · exfalso
      have hinj : Function.Injective (fun i : Fin (k0 + 1) => (⟨p^[i.1] x, iterate_lt hcl hx i.1⟩ : Fin n)) := by
        intro i j hij
        have hij' : p^[i.1] x = p^[j.1] x := by
          simpa using congrArg Fin.val hij
        rcases lt_trichotomy i.1 j.1 with h | h | h
        · exact absurd hij' (key i.1 j.1 h (Nat.lt_succ_iff.mp j.2))
        · exact Fin.ext h
        · exact absurd hij'.symm (key j.1 i.1 h (Nat.lt_succ_iff.mp i.2))
      have := Fintype.card_le_of_injective _ hinj
      simp only [Fintype.card_fin] at this
      omega
  · exact ⟨0, Nat.zero_le n, by simpa using hout x (le_of_not_lt hx)⟩

theorem ufRoot_spec {n : ℕ} {p : ℕ → ℕ} (h : UFInv n p) (x : ℕ) :
    p (ufRoot n p x) = ufRoot n p x ∧ Reaches p x (ufRoot n p x) :=
  root_aux_spec n x (exists_fix_le h.1 h.2.1 x (h.2.2 x))

theorem ufRoot_fix {n : ℕ} {p : ℕ → ℕ} (h : UFInv n p) (x : ℕ) :
    p (ufRoot n p x) = ufRoot n p x := (ufRoot_spec h x).1

theorem ufRoot_reaches {n : ℕ} {p : ℕ → ℕ} (h : UFInv n p) (x : ℕ) :
    Reaches p x (ufRoot n p x) := (ufRoot_spec h x).2

theorem ufRoot_eq_of {n : ℕ} {p : ℕ → ℕ} {x r : ℕ} (h : UFInv n p)
    (hr : p r = r) (hxr : Reaches p x r) : ufRoot n p x = r :=
  fix_unique (ufRoot_fix h x) hr (ufRoot_reaches h x) hxr

theorem ufRoot_of_fix {n : ℕ} {p : ℕ → ℕ} {r : ℕ} (h : UFInv n p)
    (hr : p r = r) : ufRoot n p r = r :=
  ufRoot_eq_of h hr (reaches_self p r)

theorem ufRoot_reaches_eq {n : ℕ} {p : ℕ → ℕ} {x y : ℕ} (h : UFInv n p)
    (hxy : Reaches p x y) : ufRoot n p x = ufRoot n p y :=
  ufRoot_eq_of h (ufRoot_fix h y) (reaches_trans hxy (ufRoot_reaches h y))

theorem ufRoot_lt {n : ℕ} {p : ℕ → ℕ} {x : ℕ} (h : UFInv n p) (hx : x < n) :
    ufRoot n p x < n := by
  obtain ⟨k, hk⟩ := ufRoot_reaches h x
  rw [← hk]
  exact iterate_lt h.2.1 hx k

theorem ufRoot_idem {n : ℕ} {p : ℕ → ℕ} (h : UFInv n p) (x : ℕ) :
    ufRoot n p (ufRoot n p x) = ufRoot n p x :=
  ufRoot_of_fix h (ufRoot_fix h x)

/-- Helper: updating the parent of a node the chain avoids does not
change the chain. -/
theorem chain_agree {p : ℕ → ℕ} {a b : ℕ} :
    ∀ (k x : ℕ), (∀ i, i < k → p^[i] x ≠ a) →
      (parent_upd p a b)^[k] x = p^[k] x := by
  intro k
  induction k with
  | zero => intro x _; rfl
  | succ k ihk =>
    intro x hne
    rw [Function.iterate_succ_apply', Function.iterate_succ_apply',
      ihk x (fun i hi => hne i (Nat.lt_succ_of_lt hi))]
    show parent_upd p a b (p^[k] x) = p (p^[k] x)
    unfold parent_upd
    rw [if_neg (hne k (Nat.lt_succ_self k))]

/-- Helper: effect of `parent[a] = b` on the root function, for the two
shapes arising in the algorithm — path compression (`b` is `a`'s root)
and union (`a` is itself a root): afterwards everything rooted with `a`
is rooted at `b`, and every other root is unchanged. -/
theorem parent_upd_root {n : ℕ} {p : ℕ → ℕ} {a b : ℕ} (h : UFInv n p)
    (ha : a < n) (hb : p b = b) (hbn : b < n)
    (hcase : b = ufRoot n p a ∨ p a = a) :
    UFInv n (parent_upd p a b) ∧
    ∀ y, ufRoot n (parent_upd p a b) y =
      if ufRoot n p y = ufRoot n p a then b else ufRoot n p y := by
  by_cases hba : b = a
  · -- `parent[a] = a`: the map is unchanged pointwise.
    have hfixa : p a = a := by
      rcases hcase with hc | hc
      · have hra : ufRoot n p a = a := by rw [← hc, hba]
        have hfx := ufRoot_fix h a
        rwa [hra] at hfx
      · exact hc
    have hpp : parent_upd p a b = p := by
      funext z
      unfold parent_upd
      split
      · rename_i hz
        rw [hz, hfixa, hba]
      · rfl
    rw [hpp]
    refine ⟨h, ?_⟩
    intro y
    have hra : ufRoot n p a = a := ufRoot_of_fix h hfixa
    split
    · rename_i hcond
      rw [hcond, hra, hba]
    · rfl
  · -- Proper update. Describe, for every `y`, a fixed point of the new
    -- map reachable from `y`.
    have key : ∀ y, ∃ r', parent_upd p a b r' = r' ∧ Reaches (parent_upd p a b) y r' ∧
        r' = (if ufRoot n p y = ufRoot n p a then b else ufRoot n p y) := by
      intro y
      obtain ⟨k, hk⟩ := ufRoot_reaches h y
      by_cases hhit : ∃ i, i ≤ k ∧ p^[i] y = a
      · classical
        have hex : ∃ i, p^[i] y = a := by
          obtain ⟨i, _, hi⟩ := hhit
          exact ⟨i, hi⟩
        have hi0 := Nat.find_spec hex
        set i0 := Nat.find hex with hi0def
        have hmin : ∀ m, m < i0 → p^[m] y ≠ a := fun m hm => Nat.find_min hex hm
        have hchain : (parent_upd p a b)^[i0] y = a := by
          rw [chain_agree i0 y hmin]
          exact hi0
        have hstep : (parent_upd p a b)^[i0 + 1] y = b := by
          rw [Function.iterate_succ_apply', hchain]
          unfold parent_upd
          rw [if_pos rfl]
        have hbfix : parent_upd p a b b = b := by
          unfold parent_upd
          rw [if_neg hba, hb]
        have hcond : ufRoot n p y = ufRoot n p a :=
          ufRoot_reaches_eq h ⟨i0, hi0⟩
        exact ⟨b, hbfix, ⟨i0 + 1, hstep⟩, by rw [if_pos hcond]⟩
      · push_neg at hhit
        have hchain : (parent_upd p a b)^[k] y = ufRoot n p y := by
          rw [chain_agree k y (fun i hi => hhit i (le_of_lt hi))]
          exact hk
        have hsna : ufRoot n p y ≠ a := by
          rw [← hk]
          exact hhit k le_rfl
        have hsfix : parent_upd p a b (ufRoot n p y) = ufRoot n p y := by
          unfold parent_upd
          rw [if_neg hsna]
          exact ufRoot_fix h y
        refine ⟨ufRoot n p y, hsfix, ⟨k, hchain⟩, ?_⟩
        split
        · rename_i hcond
          rcases hcase with hc | hc
          · rw [hc, hcond]
          · exfalso
            exact hsna (hcond.trans (ufRoot_of_fix h hc))
        · rfl
    have hinv : UFInv n (parent_upd p a b) := by
      refine ⟨?_, ?_, ?_⟩
      · intro x hx
        unfold parent_upd
        rw [if_neg (by omega : ¬ x = a)]
        exact h.1 x hx
      · intro x hx
        unfold parent_upd
        split
        · exact hbn
        · exact h.2.1 x hx
      · intro x
        obtain ⟨r', hr1, ⟨m, hm⟩, _⟩ := key x
        exact ⟨m, by rw [hm, hr1]⟩
    refine ⟨hinv, ?_⟩
    intro y
    obtain ⟨r', hr1, hr2, hr3⟩ := key y
    rw [ufRoot_eq_of hinv hr1 hr2]
    exact hr3

/-- Helper: `find` with path compression returns the root, keeps the
invariant, and changes no node's root. -/
theorem find_compress_spec {n : ℕ} :
    ∀ (fuel : ℕ) (p : ℕ → ℕ) (x : ℕ), UFInv n p →
      (∃ k, k ≤ fuel ∧ p (p^[k] x) = p^[k] x) →
      (find_compress p fuel x).1 = ufRoot n p x ∧
      UFInv n (find_compress p fuel x).2 ∧
      (∀ y, ufRoot n (find_compress p fuel x).2 y = ufRoot n p y) := by
  intro fuel
  induction fuel with
  | zero =>
    intro p x h hk
    obtain ⟨k, hk0, hfix⟩ := hk
    have hkz : k = 0 := Nat.le_zero.mp hk0
    subst hkz
    have hfx : p x = x := by simpa using hfix
    exact ⟨(ufRoot_of_fix h hfx).symm, h, fun _ => rfl⟩
  | succ fuel ih =>
    intro p x h hk
    by_cases hx : p x = x
    · have hres : find_compress p (fuel + 1) x = (x, p) := by
        simp only [find_compress, if_pos hx]
      rw [hres]
      exact ⟨(ufRoot_of_fix h hx).symm, h, fun _ => rfl⟩
    · obtain ⟨k, hk0, hfix⟩ := hk
      have hkpos : k ≠ 0 := by
        intro h0
        subst h0
        exact hx (by simpa using hfix)
      obtain ⟨k', rfl⟩ := Nat.exists_eq_succ_of_ne_zero hkpos
      have hfix' : p (p^[k'] (p x)) = p^[k'] (p x) := by
        rwa [← Function.iterate_succ_apply]
      have hsub := ih p (p x) h ⟨k', Nat.succ_le_succ_iff.mp hk0, hfix'⟩
      have hxa : x < n := by
        by_contra hxn
        exact hx (h.1 x (le_of_not_lt hxn))
      have hroot_px : ufRoot n p (p x) = ufRoot n p x :=
        (ufRoot_reaches_eq h (reaches_parent p x)).symm
      set r := find_compress p fuel (p x) with hrdef
      have hr1 : r.1 = ufRoot n p x := by rw [hsub.1, hroot_px]
      have hr2inv : UFInv n r.2 := hsub.2.1
      have hr2roots : ∀ y, ufRoot n r.2 y = ufRoot n p y := hsub.2.2
      have hbfix : r.2 r.1 = r.1 := by
        have h1 : ufRoot n r.2 r.1 = r.1 := by
          rw [hr2roots r.1, hr1, ufRoot_idem h]
        have h2 := ufRoot_fix hr2inv r.1
        rwa [h1] at h2
      have hupd := parent_upd_root (a := x) (b := r.1) hr2inv hxa hbfix
        (hr1 ▸ ufRoot_lt h hxa)
        (Or.inl (by rw [hr2roots x, hr1]))
      have hres : find_compress p (fuel + 1) x = (r.1, parent_upd r.2 x r.1) := by
        simp only [find_compress, if_neg hx]
      rw [hres]
      refine ⟨hr1, hupd.1, ?_⟩
      intro y
      have := hupd.2 y
      simp only at this
      rw [this, hr2roots y, hr2roots x]
      split
      · rename_i hcond
        rw [hr1, ← hcond]
      · rfl

/-- Helper: a single `union(x, y)` keeps the invariant and redirects
exactly the roots equal to `x`'s root onto `y`'s root. -/
theorem union_op_spec {n : ℕ} {p : ℕ → ℕ} (h : UFInv n p) {x y : ℕ}
    (hx : x < n) (hy : y < n) :
    UFInv n (union_op n p x y) ∧
    ∀ z, ufRoot n (union_op n p x y) z =
      if ufRoot n p z = ufRoot n p x then ufRoot n p y else ufRoot n p z := by
  have hfx := find_compress_spec n p x h (exists_fix_le h.1 h.2.1 x (h.2.2 x))
  set fx := find_compress p n x with hfxdef
  have hfy := find_compress_spec n fx.2 y hfx.2.1
    (exists_fix_le hfx.2.1.1 hfx.2.1.2.1 y (hfx.2.1.2.2 y))
  set fy := find_compress fx.2 n y with hfydef
  have hfy1 : fy.1 = ufRoot n p y := by rw [hfy.1, hfx.2.2 y]
  have hfx1 : fx.1 = ufRoot n p x := hfx.1
  have hroots2 : ∀ z, ufRoot n fy.2 z = ufRoot n p z := by
    intro z
    rw [hfy.2.2 z, hfx.2.2 z]
  have hinv2 : UFInv n fy.2 := hfy.2.1
  by_cases heq : fx.1 = fy.1
  · have hres : union_op n p x y = fy.2 := by
      simp only [union_op, ← hfxdef, ← hfydef, if_pos heq]
    rw [hres]
    refine ⟨hinv2, ?_⟩
    intro z
    rw [hroots2 z]
    split
    · rename_i hcond
      rw [hcond, ← hfx1, heq, hfy1]
    · rfl
  · have hres : union_op n p x y = parent_upd fy.2 fx.1 fy.1 := by
      simp only [union_op, ← hfxdef, ← hfydef, if_neg heq]
    have hafix : fy.2 fx.1 = fx.1 := by
      have h1 : ufRoot n fy.2 fx.1 = fx.1 := by
        rw [hroots2 fx.1, hfx1, ufRoot_idem h]
      have h2 := ufRoot_fix hinv2 fx.1
      rwa [h1] at h2
    have hbfix : fy.2 fy.1 = fy.1 := by
      have h1 : ufRoot n fy.2 fy.1 = fy.1 := by
        rw [hroots2 fy.1, hfy1, ufRoot_idem h]
      have h2 := ufRoot_fix hinv2 fy.1
      rwa [h1] at h2
    have hupd := parent_upd_root (a := fx.1) (b := fy.1) hinv2
      (hfx1 ▸ ufRoot_lt h hx) hbfix (hfy1 ▸ ufRoot_lt h hy)
      (Or.inr hafix)
    rw [hres]
    refine ⟨hupd.1, ?_⟩
    intro z
    rw [hupd.2 z, hroots2 z, hroots2 fx.1, hfx1, ufRoot_idem h]
    split
    · rename_i hcond
      rw [hfy1]
    · rfl

/-- Helper: processing an edge list keeps the invariant. -/
theorem apply_edges_inv {n : ℕ} :
    ∀ (E : List (ℕ × ℕ)) (p : ℕ → ℕ), UFInv n p →
      (∀ e ∈ E, e.1 < n ∧ e.2 < n) → UFInv n (apply_edges n E p) := by
  intro E
  induction E with
  | nil => intro p h _; exact h
  | cons e rest ih =>
    intro p h hr
    have he := hr e (List.mem_cons_self e rest)
    exact ih (union_op n p e.1 e.2)
      (union_op_spec h he.1 he.2).1
      (fun e' he' => hr e' (List.mem_cons_of_mem e he'))

/-- Helper: nodes sharing a root keep sharing a root through later
unions. -/
theorem apply_edges_mono {n : ℕ} :
    ∀ (E : List (ℕ × ℕ)) (p : ℕ → ℕ), UFInv n p →
      (∀ e ∈ E, e.1 < n ∧ e.2 < n) →
      ∀ z w, ufRoot n p z = ufRoot n p w →
        ufRoot n (apply_edges n E p) z = ufRoot n (apply_edges n E p) w := by
  intro E
  induction E with
  | nil => intro p _ _ z w hzw; exact hzw
  | cons e rest ih =>
    intro p h hr z w hzw
    have he := hr e (List.mem_cons_self e rest)
    have hu := union_op_spec h he.1 he.2
    refine ih (union_op n p e.1 e.2) hu.1
      (fun e' he' => hr e' (List.mem_cons_of_mem e he')) z w ?_
    rw [hu.2 z, hu.2 w, hzw]

/-- Helper: both endpoints of a processed edge end up sharing a root. -/
theorem apply_edges_connects {n : ℕ} :
    ∀ (E : List (ℕ × ℕ)) (p : ℕ → ℕ), UFInv n p →
      (∀ e ∈ E, e.1 < n ∧ e.2 < n) →
      ∀ e ∈ E, ufRoot n (apply_edges n E p) e.1 = ufRoot n (apply_edges n E p) e.2 := by
  intro E
  induction E with
  | nil => intro p _ _ e he; simp at he
  | cons e0 rest ih =>
    intro p h hr e he
    have he0 := hr e0 (List.mem_cons_self e0 rest)
    have hu := union_op_spec h he0.1 he0.2
    have hrest : ∀ e' ∈ rest, e'.1 < n ∧ e'.2 < n :=
      fun e' he' => hr e' (List.mem_cons_of_mem e0 he')
    rcases List.mem_cons.mp he with he1 | he2
    · subst he1
      refine apply_edges_mono rest (union_op n p e.1 e.2) hu.1 hrest e.1 e.2 ?_
      rw [hu.2 e.1, hu.2 e.2, if_pos rfl]
      split
      · rename_i hc
        rw [hc]
      · rfl
    · exact ih (union_op n p e0.1 e0.2) hu.1 hrest e he2

/-- Helper: a shared final root comes from a chain of processed edges
and initially-shared roots. -/
theorem apply_edges_sound {n : ℕ} :
    ∀ (E : List (ℕ × ℕ)) (p : ℕ → ℕ), UFInv n p →
      (∀ e ∈ E, e.1 < n ∧ e.2 < n) →
      ∀ z w, ufRoot n (apply_edges n E p) z = ufRoot n (apply_edges n E p) w →
        Relation.EqvGen (fun a b => (a, b) ∈ E ∨ ufRoot n p a = ufRoot n p b) z w := by
  intro E
  induction E with
  | nil =>
    intro p _ _ z w hzw
    exact Relation.EqvGen.rel z w (Or.inr hzw)
  | cons e rest ih =>
    intro p h hr z w hzw
    have he := hr e (List.mem_cons_self e rest)
    have hu := union_op_spec h he.1 he.2
    have hrest : ∀ e' ∈ rest, e'.1 < n ∧ e'.2 < n :=
      fun e' he' => hr e' (List.mem_cons_of_mem e he')
    have hsub := ih (union_op n p e.1 e.2) hu.1 hrest z w hzw
    -- Map the relation of the tail state into the target relation.
    have hmap : ∀ a b, ((a, b) ∈ rest ∨
        ufRoot n (union_op n p e.1 e.2) a = ufRoot n (union_op n p e.1 e.2) b) →
        Relation.EqvGen (fun a b => (a, b) ∈ e :: rest ∨ ufRoot n p a = ufRoot n p b) a b := by
      intro a b hab
      rcases hab with hmem | hroot
      · exact Relation.EqvGen.rel a b (Or.inl (List.mem_cons_of_mem e hmem))
      · rw [hu.2 a, hu.2 b] at hroot
        by_cases hca : ufRoot n p a = ufRoot n p e.1 <;>
          by_cases hcb : ufRoot n p b = ufRoot n p e.1
        · exact Relation.EqvGen.rel a b (Or.inr (hca.trans hcb.symm))
        · rw [if_pos hca, if_neg hcb] at hroot
          -- a ~ e.1, edge e, e.2 ~ b
          refine Relation.EqvGen.trans a e.1 b
            (Relation.EqvGen.rel a e.1 (Or.inr hca)) ?_
          refine Relation.EqvGen.trans e.1 e.2 b
            (Relation.EqvGen.rel e.1 e.2 (Or.inl (List.mem_cons_self e rest))) ?_
          exact Relation.EqvGen.rel e.2 b (Or.inr hroot)
        · rw [if_neg hca, if_pos hcb] at hroot
          refine Relation.EqvGen.trans a e.2 b
            (Relation.EqvGen.rel a e.2 (Or.inr hroot)) ?_
          refine Relation.EqvGen.trans e.2 e.1 b
            (Relation.EqvGen.symm e.1 e.2
              (Relation.EqvGen.rel e.1 e.2 (Or.inl (List.mem_cons_self e rest)))) ?_
          exact Relation.EqvGen.rel e.1 b (Or.inr hcb.symm)
        · rw [if_neg hca, if_neg hcb] at hroot
          exact Relation.EqvGen.rel a b (Or.inr hroot)
    have hflat := Relation.EqvGen.mono (r := fun a b => (a, b) ∈ rest ∨
        ufRoot n (union_op n p e.1 e.2) a = ufRoot n (union_op n p e.1 e.2) b)
      (p := Relation.EqvGen (fun a b => (a, b) ∈ e :: rest ∨ ufRoot n p a = ufRoot n p b))
      hmap hsub
    rwa [Equivalence.eqvGen_iff (Relation.EqvGen.is_equivalence _)] at hflat

theorem UFInv_id (n : ℕ) : UFInv n (fun x => x) :=
  ⟨fun _ _ => rfl, fun _ h => h, fun _ => ⟨0, rfl⟩⟩

theorem ufRoot_id (n x : ℕ) : ufRoot n (fun z => z) x = x :=
  ufRoot_of_fix (UFInv_id n) rfl

/-- The symmetric above-threshold link relation read off the similarity
matrix: exactly the pairs that `_cluster_questions` unions. -/
def linked (sim : ℕ → ℕ → ℚ) (t : ℚ) (n : ℕ) (a b : ℕ) : Prop :=
  (a < b ∧ b < n ∧ sim a b ≥ t) ∨ (b < a ∧ a < n ∧ sim b a ≥ t)

theorem linked_symm {sim : ℕ → ℕ → ℚ} {t : ℚ} {n : ℕ} :
    Symmetric (linked sim t n) := by
  intro a b h
  rcases h with h | h
  · exact Or.inr h
  · exact Or.inl h

instance linked_decidable (sim : ℕ → ℕ → ℚ) (t : ℚ) (n : ℕ) (a b : ℕ) :
    Decidable (linked sim t n a b) := by
  unfold linked
  infer_instance

theorem mem_threshold_pairs {sim : ℕ → ℕ → ℚ} {t : ℚ} {n : ℕ} {a b : ℕ} :
    (a, b) ∈ threshold_pairs sim t n ↔ a < b ∧ b < n ∧ sim a b ≥ t := by
  unfold threshold_pairs
  simp only [List.mem_flatMap, List.mem_map, List.mem_filter, List.mem_range,
    decide_eq_true_eq, Prod.mk.injEq]
  constructor
  · rintro ⟨i, hi, j, ⟨hj, hij, hsim⟩, rfl, rfl⟩
    exact ⟨hij, hj, hsim⟩
  · rintro ⟨hab, hbn, hsim⟩
    exact ⟨a, by omega, b, ⟨hbn, hab, hsim⟩, rfl, rfl⟩

theorem threshold_pairs_in_range {sim : ℕ → ℕ → ℚ} {t : ℚ} {n : ℕ} :
    ∀ e ∈ threshold_pairs sim t n, e.1 < n ∧ e.2 < n := by
  intro e he
  obtain ⟨h1, h2, _⟩ := mem_threshold_pairs.mp ((Prod.mk.eta (p := e)) ▸ he)
  omega

/-- Helper: the equivalence closure of a symmetric relation is its
reflexive-transitive closure (a chain of links). -/
theorem eqvGen_iff_reflTransGen {α : Type} {r : α → α → Prop}
    (hsym : Symmetric r) {a b : α} :
    Relation.EqvGen r a b ↔ Relation.ReflTransGen r a b := by
  constructor
  · intro h
    induction h with
    | rel x y hxy => exact Relation.ReflTransGen.single hxy
    | refl x => exact Relation.ReflTransGen.refl
    | symm x y _ ih => exact Relation.ReflTransGen.symmetric hsym ih
    | trans x y z _ _ ih1 ih2 => exact ih1.trans ih2
  · intro h
    induction h with
    | refl => exact Relation.EqvGen.refl a
    | tail _ hxy ih => exact Relation.EqvGen.trans _ _ _ ih (Relation.EqvGen.rel _ _ hxy)

/-- Helper: two indices share a final union-find root exactly when they
are joined by a chain of above-threshold pairs. -/
theorem cluster_root_iff (sim : ℕ → ℕ → ℚ) (t : ℚ) (n : ℕ) (z w : ℕ) :
    (ufRoot n (apply_edges n (threshold_pairs sim t n) (fun x => x)) z =
      ufRoot n (apply_edges n (threshold_pairs sim t n) (fun x => x)) w) ↔
    Relation.EqvGen (linked sim t n) z w := by
  constructor
  · intro h
    have hsound := apply_edges_sound (threshold_pairs sim t n) (fun x => x)
      (UFInv_id n) threshold_pairs_in_range z w h
    have hmap : ∀ a b, ((a, b) ∈ threshold_pairs sim t n ∨
        ufRoot n (fun x => x) a = ufRoot n (fun x => x) b) →
        Relation.EqvGen (linked sim t n) a b := by
      intro a b hab
      rcases hab with hmem | heq
      · exact Relation.EqvGen.rel a b (Or.inl (mem_threshold_pairs.mp hmem))
      · rw [ufRoot_id, ufRoot_id] at heq
        rw [heq]
        exact Relation.EqvGen.refl b
    have := Relation.EqvGen.mono hmap hsound
    rwa [Equivalence.eqvGen_iff (Relation.EqvGen.is_equivalence _)] at this
  · intro h
    induction h with
    | rel x y hxy =>
      rcases hxy with hf | hb
      · exact apply_edges_connects (threshold_pairs sim t n) (fun x => x)
          (UFInv_id n) threshold_pairs_in_range (x, y)
          (mem_threshold_pairs.mpr hf)
      · exact (apply_edges_connects (threshold_pairs sim t n) (fun x => x)
          (UFInv_id n) threshold_pairs_in_range (y, x)
          (mem_threshold_pairs.mpr hb)).symm
    | refl x => rfl
    | symm x y _ ih => exact ih.symm
    | trans x y z _ _ ih1 ih2 => exact ih1.trans ih2

theorem add_to_group_keys (acc : List (ℕ × List ℕ)) (r i : ℕ) :
    (add_to_group acc r i).map Prod.fst =
      if r ∈ acc.map Prod.fst then acc.map Prod.fst
      else acc.map Prod.fst ++ [r] := by
  induction acc with
  | nil => simp [add_to_group]
  | cons pr rest ih =>
    obtain ⟨r', l⟩ := pr
    by_cases hr : r' = r
    · subst hr
      simp [add_to_group]
    · have hunf : add_to_group ((r', l) :: rest) r i = (r', l) :: add_to_group rest r i := by
        simp [add_to_group, hr]
      rw [hunf, List.map_cons, ih, List.map_cons]
      by_cases hmem : r ∈ rest.map Prod.fst
      · rw [if_pos hmem, if_pos (List.mem_cons_of_mem _ hmem)]
      · rw [if_neg hmem, if_neg ?hc, List.cons_append]
        case hc =>
          intro hcon
          rcases List.mem_cons.mp hcon with h1 | h2
          · exact hr h1.symm
          · exact hmem h2

theorem add_to_group_members (acc : List (ℕ × List ℕ)) (r i : ℕ) :
    ((add_to_group acc r i).map Prod.snd).flatten.Perm
      (i :: (acc.map Prod.snd).flatten) := by
  induction acc with
  | nil => simp [add_to_group]
  | cons pr rest ih =>
    obtain ⟨r', l⟩ := pr
    by_cases hr : r' = r
    · subst hr
      have hunf : add_to_group ((r', l) :: rest) r' i = (r', l ++ [i]) :: rest := by
        simp [add_to_group]
      rw [hunf]
      simp only [List.map_cons, List.flatten_cons]
      rw [List.append_assoc]
      exact List.perm_middle
    · have hunf : add_to_group ((r', l) :: rest) r i = (r', l) :: add_to_group rest r i := by
        simp [add_to_group, hr]
      rw [hunf]
      simp only [List.map_cons, List.flatten_cons]
      exact (ih.append_left l).trans List.perm_middle

theorem add_to_group_roots (R : ℕ → ℕ) (acc : List (ℕ × List ℕ)) (r i : ℕ)
    (hacc : ∀ pr ∈ acc, ∀ j ∈ pr.2, R j = pr.1) (hi : R i = r) :
    ∀ pr ∈ add_to_group acc r i, ∀ j ∈ pr.2, R j = pr.1 := by
  induction acc with
  | nil =>
    intro pr hpr j hj
    simp only [add_to_group, List.mem_singleton] at hpr
    subst hpr
    simp only [List.mem_singleton] at hj
    subst hj
    exact hi
  | cons pr0 rest ih =>
    obtain ⟨r', l⟩ := pr0
    by_cases hr : r' = r
    · subst hr
      intro pr hpr j hj
      simp only [add_to_group, if_pos rfl] at hpr
      rcases List.mem_cons.mp hpr with hpr1 | hpr2
      · subst hpr1
        simp only at hj
        rcases List.mem_append.mp hj with hjl | hji
        · exact hacc (r', l) (List.mem_cons_self _ _) j hjl
        · simp only [List.mem_singleton] at hji
          subst hji
          exact hi
      · exact hacc pr (List.mem_cons_of_mem _ hpr2) j hj
    · intro pr hpr j hj
      simp only [add_to_group, if_neg hr] at hpr
      rcases List.mem_cons.mp hpr with hpr1 | hpr2
      · subst hpr1
        exact hacc (r', l) (List.mem_cons_self _ _) j hj
      · exact ih (fun pr' hpr' => hacc pr' (List.mem_cons_of_mem _ hpr')) pr hpr2 j hj

theorem eq_of_nodup_keys :
    ∀ (res : List (ℕ × List ℕ)), (res.map Prod.fst).Nodup →
      ∀ pr ∈ res, ∀ pr' ∈ res, pr.1 = pr'.1 → pr = pr' := by
  intro res
  induction res with
  | nil => intro _ pr hpr; simp at hpr
  | cons a rest ih =>
    intro hnd pr hpr pr' hpr' hk
    simp only [List.map_cons, List.nodup_cons] at hnd
    rcases List.mem_cons.mp hpr with h1 | h1 <;>
      rcases List.mem_cons.mp hpr' with h2 | h2
    · rw [h1, h2]
    · exfalso
      apply hnd.1
      rw [h1] at hk
      rw [hk]
      exact List.mem_map_of_mem Prod.fst h2
    · exfalso
      apply hnd.1
      rw [h2] at hk
      rw [← hk]
      exact List.mem_map_of_mem Prod.fst h1
    · exact ih hnd.2 pr h1 pr' h2 hk

/-- Helper: the grouping loop of `_cluster_questions` produces an
association list with distinct root keys whose members carry that root,
jointly enumerating the processed indices. -/
theorem group_loop_spec {n : ℕ} (R : ℕ → ℕ) :
    ∀ (l : List ℕ) (p : ℕ → ℕ) (acc : List (ℕ × List ℕ)),
      UFInv n p → (∀ y, ufRoot n p y = R y) →
      (acc.map Prod.fst).Nodup →
      (∀ pr ∈ acc, ∀ j ∈ pr.2, R j = pr.1) →
      ((group_loop n l p acc).map Prod.fst).Nodup ∧
      (∀ pr ∈ group_loop n l p acc, ∀ j ∈ pr.2, R j = pr.1) ∧
      ((group_loop n l p acc).map Prod.snd).flatten.Perm
        ((acc.map Prod.snd).flatten ++ l) := by
  intro l
  induction l with
  | nil =>
    intro p acc _ _ hnd hroots
    refine ⟨hnd, hroots, ?_⟩
    show ((acc.map Prod.snd).flatten).Perm ((acc.map Prod.snd).flatten ++ [])
    rw [List.append_nil]
  | cons i rest ih =>
    intro p acc hinv hR hnd hroots
    have hfc := find_compress_spec n p i hinv (exists_fix_le hinv.1 hinv.2.1 i (hinv.2.2 i))
    have hf1 : (find_compress p n i).1 = R i := by rw [hfc.1, hR i]
    have hstep : group_loop n (i :: rest) p acc =
        group_loop n rest (find_compress p n i).2
          (add_to_group acc (find_compress p n i).1 i) := rfl
    have hR2 : ∀ y, ufRoot n (find_compress p n i).2 y = R y := by
      intro y
      rw [hfc.2.2 y, hR y]
    have hnd2 : ((add_to_group acc (find_compress p n i).1 i).map Prod.fst).Nodup := by
      rw [add_to_group_keys]
      split
      · exact hnd
      · rename_i hnew
        simp only [List.nodup_append, List.nodup_singleton]
        exact ⟨hnd, by simp, by simpa using fun hmem => hnew hmem⟩
    have hroots2 : ∀ pr ∈ add_to_group acc (find_compress p n i).1 i,
        ∀ j ∈ pr.2, R j = pr.1 :=
      add_to_group_roots R acc _ i hroots hf1.symm
    obtain ⟨c1, c2, c3⟩ := ih (find_compress p n i).2
      (add_to_group acc (find_compress p n i).1 i) hfc.2.1 hR2 hnd2 hroots2
    rw [hstep]
    refine ⟨c1, c2, ?_⟩
    have step2 := (add_to_group_members acc (find_compress p n i).1 i).append_right rest
    exact c3.trans (step2.trans List.perm_middle.symm)

/-- Helper: the groups of `_cluster_questions` jointly enumerate the
record indices `0..n-1`, each exactly once. -/
theorem cluster_questions_flatten (sim : ℕ → ℕ → ℚ) (t : ℚ) (n : ℕ) :
    (cluster_questions sim t n).flatten.Perm (List.range n) := by
  have hinv : UFInv n (apply_edges n (threshold_pairs sim t n) (fun x => x)) :=
    apply_edges_inv (threshold_pairs sim t n) (fun x => x) (UFInv_id n)
      threshold_pairs_in_range
  obtain ⟨c1, c2, c3⟩ := group_loop_spec
    (n := n) (ufRoot n (apply_edges n (threshold_pairs sim t n) (fun x => x)))
    (List.range n) (apply_edges n (threshold_pairs sim t n) (fun x => x)) []
    hinv (fun _ => rfl) (by simp) (by intro pr hpr; simp at hpr)
  have : (cluster_questions sim t n).flatten =
      ((group_loop n (List.range n)
        (apply_edges n (threshold_pairs sim t n) (fun x => x)) []).map Prod.snd).flatten := rfl
  rw [this]
  simpa using c3

/-- Helper: two indices lie in one group of `_cluster_questions` exactly
when they are joined by a chain of above-threshold pairs. -/
theorem cluster_sameGroup_iff (sim : ℕ → ℕ → ℚ) (t : ℚ) (n : ℕ) (i j : ℕ)
    (hi : i < n) (hj : j < n) :
    (∃ g, g ∈ cluster_questions sim t n ∧ i ∈ g ∧ j ∈ g) ↔
      Relation.EqvGen (linked sim t n) i j := by
  have hinv : UFInv n (apply_edges n (threshold_pairs sim t n) (fun x => x)) :=
    apply_edges_inv (threshold_pairs sim t n) (fun x => x) (UFInv_id n)
      threshold_pairs_in_range
  obtain ⟨c1, c2, c3⟩ := group_loop_spec
    (n := n) (ufRoot n (apply_edges n (threshold_pairs sim t n) (fun x => x)))
    (List.range n) (apply_edges n (threshold_pairs sim t n) (fun x => x)) []
    hinv (fun _ => rfl) (by simp) (by intro pr hpr; simp at hpr)
  constructor
  · rintro ⟨g, hg, hgi, hgj⟩
    obtain ⟨pr, hpr, hprg⟩ := List.mem_map.mp hg
    rw [← cluster_root_iff]
    have h1 := c2 pr hpr i (hprg ▸ hgi)
    have h2 := c2 pr hpr j (hprg ▸ hgj)
    rw [h1, h2]
  · intro h
    have hroot := (cluster_root_iff sim t n i j).mpr h
    have hmemflat : ∀ x, x < n →
        ∃ pr ∈ group_loop n (List.range n)
          (apply_edges n (threshold_pairs sim t n) (fun x => x)) [], x ∈ pr.2 := by
      intro x hx
      have hx1 : x ∈ ((group_loop n (List.range n)
          (apply_edges n (threshold_pairs sim t n) (fun x => x)) []).map Prod.snd).flatten := by
        refine (List.Perm.mem_iff (by simpa using c3)).mpr ?_
        simpa using hx
      obtain ⟨l, hl, hxl⟩ := List.mem_flatten.mp hx1
      obtain ⟨pr, hpr, hprl⟩ := List.mem_map.mp hl
      exact ⟨pr, hpr, hprl ▸ hxl⟩
    obtain ⟨pr1, hpr1, hi1⟩ := hmemflat i hi
    obtain ⟨pr2, hpr2, hj2⟩ := hmemflat j hj
    have hk1 := c2 pr1 hpr1 i hi1
    have hk2 := c2 pr2 hpr2 j hj2
    have hkeq : pr1.1 = pr2.1 := by rw [← hk1, ← hk2, hroot]
    have hpr12 : pr1 = pr2 := eq_of_nodup_keys _ c1 pr1 hpr1 pr2 hpr2 hkeq
    exact ⟨pr1.2, List.mem_map_of_mem Prod.snd hpr1, hi1, hpr12 ▸ hj2⟩

/-- C1 theorem (amended): for every similarity matrix and threshold, the
groups of the optimized detector's `_cluster_questions` are exactly the
connected components of the relation "similarity ≥ threshold" over the
record indices: every index belongs to exactly one group, and two
indices share a group precisely when a chain of above-threshold pairs
joins them. (The baseline `find_duplicate_groups` does not satisfy this:
see its counterexample.) -/
theorem cluster_questions_connected_components (sim : ℕ → ℕ → ℚ) (t : ℚ) (n : ℕ) :
    (cluster_questions sim t n).flatten.Perm (List.range n) ∧
    (∀ i j, i < n → j < n →
      ((∃ g, g ∈ cluster_questions sim t n ∧ i ∈ g ∧ j ∈ g) ↔
        Relation.ReflTransGen (linked sim t n) i j)) :=
  ⟨cluster_questions_flatten sim t n,
   fun i j hi hj => (cluster_sameGroup_iff sim t n i j hi hj).trans
     (eqvGen_iff_reflTransGen linked_symm)⟩

/-- C1 witness: the theorem applied at a concrete 2-element matrix whose
single pair is above threshold. -/
theorem cluster_questions_connected_components_witness :
    (∃ g, g ∈ cluster_questions (fun _ _ => 1) (1/2) 2 ∧ 0 ∈ g ∧ 1 ∈ g) ↔
      Relation.ReflTransGen (linked (fun _ _ => 1) (1/2) 2) 0 1 :=
  (cluster_questions_connected_components (fun _ _ => 1) (1/2) 2).2 0 1
    (by decide) (by decide)

/-- The three-record chain input for the baseline counterexample: record
1 is similar to both neighbours, records 0 and 2 share nothing. -/
def chain_questions : List Question :=
  [{question := "wolf fox"}, {question := "wolf fox lion bear"},
   {question := "lion bear"}]

/-- Pairwise `calculate_similarity` over `chain_questions` under the
degraded oracles: `sim 0 1 = sim 1 2 = 1/5`, `sim 0 2 = 0`. -/
def chain_sim : ℕ → ℕ → ℚ :=
  fun i j => calculate_similarity sample_ctx degraded_orc
    (chain_questions.getD i default) (chain_questions.getD j default)

/-- C1 counterexample: at threshold 0.2 the records 1 and 2 are linked
by an above-threshold pair, yet the baseline `find_duplicate_groups`
puts them in different groups (seed 0 absorbs 1; record 2 is only ever
compared against the seed 0, with similarity 0): the baseline's groups
are not the connected components. -/
theorem baseline_groups_counterexample :
    Relation.ReflTransGen (linked chain_sim (1/5) 3) 1 2 ∧
    ¬ (∃ g, g ∈ find_duplicate_groups 3 chain_sim (1/5) ∧ 1 ∈ g ∧ 2 ∈ g) := by
  constructor
  · refine Relation.ReflTransGen.single (Or.inl ⟨?_, ?_, ?_⟩)
    · decide
    · decide
    · with_unfolding_all decide
  · with_unfolding_all decide

/-- C2 theorem (amended): for one fixed similarity matrix, lowering the
threshold only coarsens the partition produced by `_cluster_questions`:
any two indices sharing a group at the higher threshold still share a
group at the lower one. (The baseline greedy grouping violates this: see
its counterexample.) -/
theorem cluster_threshold_monotone (sim : ℕ → ℕ → ℚ) (n : ℕ) (t1 t2 : ℚ)
    (h12 : t1 ≤ t2) (i j : ℕ)
    (hsame : ∃ g, g ∈ cluster_questions sim t2 n ∧ i ∈ g ∧ j ∈ g) :
    ∃ g, g ∈ cluster_questions sim t1 n ∧ i ∈ g ∧ j ∈ g := by
  obtain ⟨g, hg, hi, hj⟩ := hsame
  have hflat := cluster_questions_flatten sim t2 n
  have hin : i < n := by
    have h1 : i ∈ (cluster_questions sim t2 n).flatten :=
      List.mem_flatten.mpr ⟨g, hg, hi⟩
    simpa using hflat.mem_iff.mp h1
  have hjn : j < n := by
    have h1 : j ∈ (cluster_questions sim t2 n).flatten :=
      List.mem_flatten.mpr ⟨g, hg, hj⟩
    simpa using hflat.mem_iff.mp h1
  have h2 := (cluster_sameGroup_iff sim t2 n i j hin hjn).mp ⟨g, hg, hi, hj⟩
  have hmono : ∀ a b, linked sim t2 n a b → linked sim t1 n a b := by
    intro a b hab
    rcases hab with ⟨h1, h2, h3⟩ | ⟨h1, h2, h3⟩
    · exact Or.inl ⟨h1, h2, le_trans h12 h3⟩
    · exact Or.inr ⟨h1, h2, le_trans h12 h3⟩
  exact (cluster_sameGroup_iff sim t1 n i j hin hjn).mpr
    (Relation.EqvGen.mono hmono h2)

/-- C2 witness: the theorem applied at a concrete matrix and thresholds
0 ≤ 1/2. -/
theorem cluster_threshold_monotone_witness :
    ∃ g, g ∈ cluster_questions (fun _ _ => 1) 0 2 ∧ 0 ∈ g ∧ 1 ∈ g :=
  cluster_threshold_monotone (fun _ _ => 1) 2 0 (1/2) (by norm_num) 0 1
    (by with_unfolding_all decide)

/-- The three-record input for the monotonicity counterexample:
`sim 0 1 = 2/15`, `sim 1 2 = 6/25`, `sim 0 2 = 2/35`. -/
def fruit_questions : List Question :=
  [{question := "apple banana elder fig"}, {question := "cherry durian elder fig"},
   {question := "cherry durian elder grape"}]

/-- Pairwise `calculate_similarity` over `fruit_questions` under the
degraded oracles. -/
def fruit_sim : ℕ → ℕ → ℚ :=
  fun i j => calculate_similarity sample_ctx degraded_orc
    (fruit_questions.getD i default) (fruit_questions.getD j default)

/-- C2 counterexample: the baseline `find_duplicate_groups` is not
threshold-monotonic. At threshold 0.2 records 1 and 2 form a group; at
the lower threshold 0.1 the seed 0 absorbs record 1 first
(`sim 0 1 = 2/15 ≥ 0.1`), so the group `{1, 2}` is split. -/
theorem threshold_monotonicity_counterexample :
    ((1 : ℚ)/10 < 1/5) ∧
    (∃ g, g ∈ find_duplicate_groups 3 fruit_sim (1/5) ∧ 1 ∈ g ∧ 2 ∈ g) ∧
    ¬ (∃ g, g ∈ find_duplicate_groups 3 fruit_sim (1/10) ∧ 1 ∈ g ∧ 2 ∈ g) := by
  refine ⟨by norm_num, ?_, ?_⟩ <;> with_unfolding_all decide

/-- Helper: membership in the numbered size->1 groups is membership in
a group of size > 1. -/
theorem mem_number_big_groups :
    ∀ (gs : List (List ℕ)) (c k : ℕ),
      (∃ pr ∈ number_big_groups c gs, k ∈ pr.2) ↔
        (∃ g ∈ gs, k ∈ g ∧ 1 < g.length) := by
  intro gs
  induction gs with
  | nil => intro c k; simp [number_big_groups]
  | cons g rest ih =>
    intro c k
    by_cases hlen : g.length ≤ 1
    · rw [show number_big_groups c (g :: rest) = number_big_groups c rest from by
        simp [number_big_groups, hlen]]
      rw [ih c k]
      constructor
      · rintro ⟨g', hg', hk, hbig⟩
        exact ⟨g', List.mem_cons_of_mem g hg', hk, hbig⟩
      · rintro ⟨g', hg', hk, hbig⟩
        rcases List.mem_cons.mp hg' with h1 | h2
        · exfalso
          rw [h1] at hbig
          omega
        · exact ⟨g', h2, hk, hbig⟩
    · rw [show number_big_groups c (g :: rest) = (c, g) :: number_big_groups (c + 1) rest from by
        simp [number_big_groups, hlen]]
      constructor
      · rintro ⟨pr, hpr, hk⟩
        rcases List.mem_cons.mp hpr with h1 | h2
        · refine ⟨g, List.mem_cons_self g rest, ?_, by omega⟩
          rw [h1] at hk
          exact hk
        · obtain ⟨g', hg', hk', hbig⟩ := (ih (c + 1) k).mp ⟨pr, h2, hk⟩
          exact ⟨g', List.mem_cons_of_mem g hg', hk', hbig⟩
      · rintro ⟨g', hg', hk, hbig⟩
        rcases List.mem_cons.mp hg' with h1 | h2
        · exact ⟨(c, g), List.mem_cons_self _ _, h1 ▸ hk⟩
        · obtain ⟨pr, hpr, hk'⟩ := (ih (c + 1) k).mpr ⟨g', h2, hk, hbig⟩
          exact ⟨pr, List.mem_cons_of_mem _ hpr, hk'⟩

/-- Helper: the annotation pass keeps the record count and every base
record, and leaves a record unannotated exactly when no group of size
> 1 contains its index. -/
theorem annotate_from_groups_spec (qs : List Question) (sim : ℕ → ℕ → ℚ)
    (t : ℚ) (groups : List (List ℕ)) :
    (annotate_from_groups qs sim t groups).1.length = qs.length ∧
    ∀ k, k < qs.length →
      ((annotate_from_groups qs sim t groups).1.getD k default).1 = qs.getD k default ∧
      (((annotate_from_groups qs sim t groups).1.getD k default).2 = none ↔
        ∀ g ∈ groups, k ∈ g → g.length ≤ 1) := by
  have hlen : (annotate_from_groups qs sim t groups).1.length = qs.length := by
    show ((List.range qs.length).map _).length = qs.length
    rw [List.length_map, List.length_range]
  refine ⟨hlen, ?_⟩
  intro k hk
  have hget : (annotate_from_groups qs sim t groups).1.getD k default =
      (qs.getD k default, annot_for qs sim (number_big_groups 1 groups) k) := by
    show ((List.range qs.length).map
      (fun i => (qs.getD i default, annot_for qs sim (number_big_groups 1 groups) i))).getD k default = _
    have hk2 : k < ((List.range qs.length).map
        (fun i => (qs.getD i default, annot_for qs sim (number_big_groups 1 groups) i))).length := by
      rw [List.length_map, List.length_range]
      exact hk
    rw [List.getD_eq_getElem _ _ hk2, List.getElem_map, List.getElem_range]
  rw [hget]
  refine ⟨rfl, ?_⟩
  show (annot_for qs sim (number_big_groups 1 groups) k = none) ↔ _
  have hnone : (annot_for qs sim (number_big_groups 1 groups) k = none) ↔
      (number_big_groups 1 groups).find? (fun pr => pr.2.contains k) = none := by
    unfold annot_for
    cases hfind : (number_big_groups 1 groups).find? (fun pr => pr.2.contains k) with
    | none => simp
    | some pr => simp
  rw [hnone, List.find?_eq_none]
  constructor
  · intro hall g hg hkg
    by_contra hbig
    obtain ⟨pr, hpr, hkpr⟩ :=
      (mem_number_big_groups groups 1 k).mpr ⟨g, hg, hkg, by omega⟩
    exact hall pr hpr (by simpa using hkpr)
  · intro hall pr hpr hcont
    have hkpr : k ∈ pr.2 := by simpa using hcont
    obtain ⟨g, hg, hkg, hbig⟩ := (mem_number_big_groups groups 1 k).mp ⟨pr, hpr, hkpr⟩
    have := hall g hg hkg
    omega

/-- C9 theorem: annotate mode (in both detectors) returns exactly the
input records in the same count and order; a record's optional
annotation block (the four fields `is_duplicate`, `duplicate_group_id`,
`duplicate_representative`, `duplicate_similarity`) is absent exactly
when every group containing its index is a singleton, and the caller's
record fields are never altered (the output pairs each original record
unchanged with the optional annotation). -/
theorem annotate_preserves_records (qs : List Question) (sim : ℕ → ℕ → ℚ)
    (t : ℚ) (ctx : NLPContext) (orc : SignalOracles) (tfidfM : ℕ → ℕ → ℚ)
    (embCos : ℕ → ℕ → Option ℚ) :
    ((annotate_duplicates qs sim t).1.length = qs.length ∧
      ∀ k, k < qs.length →
        ((annotate_duplicates qs sim t).1.getD k default).1 = qs.getD k default ∧
        (((annotate_duplicates qs sim t).1.getD k default).2 = none ↔
          ∀ g ∈ find_duplicate_groups qs.length sim t, k ∈ g → g.length ≤ 1)) ∧
    ((annotate_duplicates_optimized ctx orc qs tfidfM embCos t).1.length = qs.length ∧
      ∀ k, k < qs.length →
        ((annotate_duplicates_optimized ctx orc qs tfidfM embCos t).1.getD k default).1 =
          qs.getD k default ∧
        (((annotate_duplicates_optimized ctx orc qs tfidfM embCos t).1.getD k default).2 = none ↔
          ∀ g ∈ find_duplicate_groups_optimized ctx orc qs tfidfM embCos t,
            k ∈ g → g.length ≤ 1)) := by
  by_cases hqs : qs = []
  · subst hqs
    constructor
    · exact ⟨rfl, by intro k hk; simp at hk⟩
    · exact ⟨rfl, by intro k hk; simp at hk⟩
  · constructor
    · have hunf : annotate_duplicates qs sim t =
          annotate_from_groups qs sim t (find_duplicate_groups qs.length sim t) := by
        unfold annotate_duplicates
        rw [if_neg hqs]
      rw [hunf]
      exact annotate_from_groups_spec qs sim t (find_duplicate_groups qs.length sim t)
    · have hunf : annotate_duplicates_optimized ctx orc qs tfidfM embCos t =
          annotate_from_groups qs
            (fun i j => calculate_similarity_optimized ctx orc
              (extract_question_text (qs.getD i default))
              (extract_question_text (qs.getD j default)) none)
            t (find_duplicate_groups_optimized ctx orc qs tfidfM embCos t) := by
        unfold annotate_duplicates_optimized
        rw [if_neg hqs]
      rw [hunf]
      exact annotate_from_groups_spec qs _ t
        (find_duplicate_groups_optimized ctx orc qs tfidfM embCos t)

/-- C9 witness: the theorem applied to the concrete 5-identical-record
batch — record count preserved and record 0 keeps its base fields. -/
theorem annotate_preserves_records_witness :
    (annotate_duplicates five_identical five_sim (7/20)).1.length =
      five_identical.length ∧
    ((annotate_duplicates five_identical five_sim (7/20)).1.getD 0 default).1 =
      five_identical.getD 0 default :=
  ⟨(annotate_preserves_records five_identical five_sim (7/20) sample_ctx degraded_orc
      (fun _ _ => 0) (fun _ _ => none)).1.1,
   ((annotate_preserves_records five_identical five_sim (7/20) sample_ctx degraded_orc
      (fun _ _ => 0) (fun _ _ => none)).1.2 0 (by decide)).1⟩

/-- C10 theorem: on an empty input both annotate implementations return
an info dict with exactly the keys `groups`, `group_count` and
`duplicate_question_count` — `similarity_threshold` is absent — while on
every non-empty input the info dict carries `similarity_threshold`. -/
theorem annotate_info_keys (sim : ℕ → ℕ → ℚ) (t : ℚ) (ctx : NLPContext)
    (orc : SignalOracles) (tfidfM : ℕ → ℕ → ℚ) (embCos : ℕ → ℕ → Option ℚ) :
    ((annotate_duplicates [] sim t).2.map Prod.fst =
      ["groups", "group_count", "duplicate_question_count"]) ∧
    ("similarity_threshold" ∉ (annotate_duplicates [] sim t).2.map Prod.fst) ∧
    (∀ qs : List Question, qs ≠ [] →
      "similarity_threshold" ∈ (annotate_duplicates qs sim t).2.map Prod.fst) ∧
    ((annotate_duplicates_optimized ctx orc [] tfidfM embCos t).2.map Prod.fst =
      ["groups", "group_count", "duplicate_question_count"]) ∧
    ("similarity_threshold" ∉
      (annotate_duplicates_optimized ctx orc [] tfidfM embCos t).2.map Prod.fst) ∧
    (∀ qs : List Question, qs ≠ [] →
      "similarity_threshold" ∈
        (annotate_duplicates_optimized ctx orc qs tfidfM embCos t).2.map Prod.fst) := by
  refine ⟨rfl, ?_, ?_, rfl, ?_, ?_⟩
  · show "similarity_threshold" ∉ ["groups", "group_count", "duplicate_question_count"]
    decide
  · intro qs hqs
    have hunf : annotate_duplicates qs sim t =
        annotate_from_groups qs sim t (find_duplicate_groups qs.length sim t) := by
      unfold annotate_duplicates
      rw [if_neg hqs]
    rw [hunf]
    show "similarity_threshold" ∈
      ["groups", "group_count", "duplicate_question_count", "similarity_threshold"]
    decide
  · show "similarity_threshold" ∉ ["groups", "group_count", "duplicate_question_count"]
    decide
  · intro qs hqs
    have hunf : annotate_duplicates_optimized ctx orc qs tfidfM embCos t =
        annotate_from_groups qs
          (fun i j => calculate_similarity_optimized ctx orc
            (extract_question_text (qs.getD i default))
            (extract_question_text (qs.getD j default)) none)
          t (find_duplicate_groups_optimized ctx orc qs tfidfM embCos t) := by
      unfold annotate_duplicates_optimized
      rw [if_neg hqs]
    rw [hunf]
    show "similarity_threshold" ∈
      ["groups", "group_count", "duplicate_question_count", "similarity_threshold"]
    decide

/-- C10 witness: the theorem applied to the concrete one-record input. -/
theorem annotate_info_keys_witness :
    "similarity_threshold" ∈
      (annotate_duplicates [{question := "aaa"}] (fun _ _ => 0) (1/2)).2.map Prod.fst :=
  (annotate_info_keys (fun _ _ => 0) (1/2) sample_ctx degraded_orc
    (fun _ _ => 0) (fun _ _ => none)).2.2.1 [{question := "aaa"}] (by decide)

/-- C4 witness: the theorem applied to a concrete two-record group whose
members differ — the kept list is the representative list, the emitted
entry's question differs from its `kept_instead`, and the
non-representative member's removal entry is present in the output. -/
theorem remove_duplicates_spec_witness :
    (remove_from_groups [{question := "aa"}, {question := "bbbb"}] (fun _ _ => 1) [[0, 1]]).1 =
      [[0, 1]].map (fun g =>
        ([{question := "aa"}, {question := "bbbb"}] : List Question).getD
          (rep_of [{question := "aa"}, {question := "bbbb"}] g) default) ∧
    (⟨{question := "aa"}, {question := "bbbb"}, 1⟩ : RemovalEntry).question ≠
      (⟨{question := "aa"}, {question := "bbbb"}, 1⟩ : RemovalEntry).kept_instead ∧
    (⟨([{question := "aa"}, {question := "bbbb"}] : List Question).getD 0 default,
      ([{question := "aa"}, {question := "bbbb"}] : List Question).getD
        (rep_of [{question := "aa"}, {question := "bbbb"}] [0, 1]) default,
      1⟩ : RemovalEntry) ∈
      (remove_from_groups [{question := "aa"}, {question := "bbbb"}] (fun _ _ => 1) [[0, 1]]).2 :=
  ⟨(remove_duplicates_spec.1 [{question := "aa"}, {question := "bbbb"}]
      (fun _ _ => 1) [[0, 1]]).1,
   ((remove_duplicates_spec.1 [{question := "aa"}, {question := "bbbb"}]
      (fun _ _ => 1) [[0, 1]]).2.1
     ⟨{question := "aa"}, {question := "bbbb"}, 1⟩ (by with_unfolding_all decide)).1,
   (remove_duplicates_spec.1 [{question := "aa"}, {question := "bbbb"}]
      (fun _ _ => 1) [[0, 1]]).2.2.1 [0, 1] (List.mem_cons_self _ _)
     (by decide) 0 (by decide) (by with_unfolding_all decide)⟩
